import Mathlib

/-!
# Verification of the eina_file memory-mapped file manager

Shallow embedding of the file subsystem of the eina library
(`eina_file.c`): path splitting, path sanitization, the mapping
region table with its reference counts, the whole-file mapping,
the fault propagator, the populate rule and the line iterator.

C buffers are modelled as `List Char` (a C string is the list of its
characters before the terminating NUL); pointers into a buffer are
modelled as natural-number offsets; `NULL` results are `Option.none`.
Loops are modelled either by well-founded recursion or, where concrete
evaluation is needed, by structural recursion on a fuel argument that
strictly exceeds the loop bound at every call site.
-/

set_option maxHeartbeats 1000000

namespace Eina

/-- The NUL terminator byte. -/
def nulChar : Char := Char.ofNat 0

/-- `PATH_DELIM` on non-Windows platforms. -/
def pathDelim : Char := '/'

/-! ## eina_file_split

`eina_file_split` walks the caller's buffer with `strchr`, pushes the
start offset of every non-empty component and overwrites the delimiter
that terminates it with a NUL byte, in place.  We model the buffer
mutation explicitly: the function returns the final buffer together
with the list of pushed offsets. -/

/-- `strchr` from offset `p`: index of the first occurrence of `c` in
`s` at position `p` or later.  Structural recursion on `fuel`; callers
pass `fuel > s.length - p` so the fuel never runs out before the scan
completes. -/
def strchrFrom (s : List Char) (c : Char) : Nat → Nat → Option Nat
  | _, 0 => none
  | p, fuel + 1 =>
    if h : p < s.length then
      if s.get ⟨p, h⟩ = c then some p else strchrFrom s c (p + 1) fuel
    else none

/-- The loop of `eina_file_split`, from scan position `p`.  Returns the
final buffer and the offsets pushed into the returned array.  A
component is pushed only when its length `current - path` is positive;
the delimiter ending a pushed component is overwritten with NUL. -/
def splitLoop (buf : List Char) (p : Nat) : Nat → List Char × List Nat
  | 0 => (buf, [])
  | fuel + 1 =>
    match strchrFrom buf pathDelim p (buf.length + 1) with
    | none => (buf, if p < buf.length then [p] else [])
    | some cur =>
      if p < cur then
        let r := splitLoop (buf.set cur nulChar) (cur + 1) fuel
        (r.1, p :: r.2)
      else
        splitLoop buf (cur + 1) fuel

/-- `eina_file_split path`: final state of the caller's buffer plus the
offsets of the returned components. -/
def eina_file_split (path : List Char) : List Char × List Nat :=
  splitLoop path 0 (path.length + 1)

/-- Reading a component: the characters at offset `o` up to the next
NUL byte (what a caller sees when it dereferences a returned pointer
after the call). -/
def readCString (buf : List Char) (o : Nat) : List Char :=
  (buf.drop o).takeWhile (fun c => c ≠ nulChar)

/-- Components of a split, as strings read back from the final buffer. -/
def splitComponents (path : List Char) : List (List Char) :=
  let r := eina_file_split path
  r.2.map (readCString r.1)

/-! ## The populate rule (`_eina_file_map_populate`)

When `MAP_POPULATE` is absent, `_eina_file_map_populate` walks the
mapped range reading one byte per page step and then executes
`r ^= map[size]`.  We record the byte offsets the function reads. -/

def EINA_SMALL_PAGE : Nat := 4096
def EINA_HUGE_PAGE : Nat := 16 * 1024 * 1024

/-- Offsets visited by `for (i = 0; i < size; i += s)`.  `fuel`
exceeds the iteration count at every call site (the step `s` is one of
the two page sizes, both positive). -/
def populateLoopOffsets (size s : Nat) : Nat → Nat → List Nat
  | _, 0 => []
  | i, fuel + 1 => if i < size then i :: populateLoopOffsets size s (i + s) fuel else []

/-- All byte offsets read by `_eina_file_map_populate(map, size, hugetlb)`:
the page-stepped loop offsets followed by the final read `map[size]`. -/
def populateReadOffsets (size : Nat) (hugetlb : Bool) : List Nat :=
  let s := if hugetlb then EINA_HUGE_PAGE else EINA_SMALL_PAGE
  populateLoopOffsets size s 0 (size + 1) ++ [size]

/-! ## The line iterator (`eina_file_map_lines`)

The iterator walks a whole-file mapping.  `it->map`, `it->end` and the
`Eina_File_Line` pointers are modelled as offsets into the mapped
buffer; the mapping returned by `mmap` is page aligned, so
`(uintptr_t) eol & 0x3FF` equals the offset of `eol` modulo 1024. -/

/-- The `start`/`end` pointers, line index and reported length of an
`Eina_File_Line` (`end` is a Lean keyword, hence `stop`). -/
structure EinaFileLine where
  start : Nat
  stop : Nat
  index : Nat
  length : Nat
deriving DecidableEq

/-- State of an `Eina_Lines_Iterator`: the mapped buffer, `it->end`,
the current search `boundary` and the current line. -/
structure LinesIterator where
  buf : List Char
  stop : Nat
  boundary : Nat
  current : EinaFileLine
deriving DecidableEq

/-- `memchr(buf + start, c, chunk)` as an index: first position `i` in
`[start, start + chunk)` with `buf[i] = c`.  Structural on `chunk`. -/
def memchrIdx (buf : List Char) (c : Char) : Nat → Nat → Option Nat
  | _, 0 => none
  | start, chunk + 1 =>
    if h : start < buf.length then
      if buf.get ⟨start, h⟩ = c then some start else memchrIdx buf c (start + 1) chunk
    else none

/-- `_eina_fine_eol`: scan for the first `\r` or `\n` in bounded chunks,
returning the offset one past it (or `stop` when none is found).  The C
loop advances by `chunk ≥ 1` per round whenever `boundary ≥ 1`, which
every call site guarantees, so fuel `stop + 1` never runs out. -/
def fineEolAux (buf : List Char) (stop : Nat) : Nat → Nat → Nat → Nat
  | 0, _, _ => stop
  | fuel + 1, start, boundary =>
    if start < stop then
      let chunk := if start + boundary < stop then boundary else stop - start
      match memchrIdx buf '\r' start chunk, memchrIdx buf '\n' start chunk with
      | some cr, some lf => if lf < cr then lf + 1 else cr + 1
      | some cr, none => cr + 1
      | none, some lf => lf + 1
      | none, none => fineEolAux buf stop fuel (start + chunk) 4096
    else stop

def fineEol (buf : List Char) (stop start boundary : Nat) : Nat :=
  fineEolAux buf stop (stop + 1) start boundary

/-- The terminator-skipping loop of `_eina_file_map_lines_iterator_next`:
`while ((*e == '\n' || *e == '\r') && e < end) { if (match == *e) index++; e++; }`.
The byte is read before the bounds test, exactly as in C; at offset
`stop` the model reads the byte one past the mapping as NUL. -/
def skipEol (buf : List Char) (stop : Nat) (m : Char) : Nat → Nat → Nat → Nat × Nat
  | 0, e, idx => (e, idx)
  | fuel + 1, e, idx =>
    let c := buf.getD e nulChar
    if (c = '\n' ∨ c = '\r') ∧ e < stop then
      skipEol buf stop m fuel (e + 1) (if m = c then idx + 1 else idx)
    else (e, idx)

/-- `_eina_file_map_lines_iterator_next`.  Returns the advanced
iterator (whose `current` field is the yielded `Eina_File_Line`), or
`none` on exhaustion. -/
def linesIteratorNext (it : LinesIterator) : Option LinesIterator :=
  if it.current.stop ≥ it.stop then none
  else
    let m := it.buf.getD it.current.stop nulChar
    let r := skipEol it.buf it.stop m (it.stop + 1) it.current.stop it.current.index
    let e := r.1
    let idx := r.2 + 1
    if e = it.stop then none
    else
      let eol := fineEol it.buf it.stop e it.boundary
      let b0 := eol % 1024
      let b := if b0 = 0 then 4096 else b0
      some { it with
             boundary := b
             current := { start := e, stop := eol, index := idx, length := eol - e - 1 } }

/-- Iterator initial state built by `eina_file_map_lines` over a mapped
buffer: `boundary = 4096`, `current` all zero, `end = map + length`. -/
def linesIteratorInit (buf : List Char) : LinesIterator :=
  { buf := buf, stop := buf.length, boundary := 4096
    current := { start := 0, stop := 0, index := 0, length := 0 } }

/-- The text a consumer reads from a yielded line span: `length`
characters starting at `start`. -/
def lineText (it : LinesIterator) : List Char :=
  (it.buf.drop it.current.start).take it.current.length

/-- The iterator state after `n` successful `next` calls. -/
def linesAfter (buf : List Char) : Nat → Option LinesIterator
  | 0 => some (linesIteratorInit buf)
  | n + 1 => (linesAfter buf n).bind linesIteratorNext

/-! ## The file handle, region table and registry

`Eina_File` owns two hashes over the *same* mapping records: `map`,
keyed by `(offset, length)`, and `rmap`, keyed by the mapped address.
Pointer sharing is modelled by a record store keyed by an allocation
id, with both indices holding ids.  Addresses and sizes are 64-bit
unsigned (`MAP_FAILED` is the all-ones pointer); `mmap` results come
from an environment oracle, and the model counts `mmap` successes and
`munmap` calls so that theorems can speak about how many OS mappings a
scenario creates and destroys. -/

/-- Pointer width: addresses and `unsigned long` values live below `W`. -/
def W : Nat := 2 ^ 64

/-- `MAP_FAILED`, the all-ones pointer `(void *)-1`. -/
def MAP_FAILED_ADDR : Nat := W - 1

/-- `_Eina_File_Map`: one mapping record of the region table. -/
structure EinaFileMap where
  map : Nat
  offset : Nat
  length : Nat
  refcount : Int
  hugetlb : Bool
  faulty : Bool
deriving DecidableEq

/-- `_Eina_File`: an open file handle.  `store` holds the live mapping
records by allocation id; `fmap`/`rmap` are the two indices of the
region table (`file->map` and `file->rmap`).  `mmapCalls`, `created`
and `destroyed` are instrumentation counting OS mapping events. -/
structure EinaFile where
  length : Nat
  mtime : Nat
  inode : Nat
  mtime_nsec : Nat
  refcount : Int
  store : List (Nat × EinaFileMap)
  fmap : List ((Nat × Nat) × Nat)
  rmap : List (Nat × Nat)
  nextId : Nat
  global_map : Nat
  global_refcount : Int
  global_faulty : Bool
  shared : Bool
  mmapCalls : Nat
  created : Nat
  destroyed : Nat
deriving DecidableEq

/-- The `mmap` oracle: result address of the `n`-th `mmap` call made on
a handle (`MAP_FAILED_ADDR` models a failing call). -/
structure MmapEnv where
  result : Nat → Nat

/-- First value bound to `k`, as in `eina_hash_find`. -/
def alistFind {α β : Type} [DecidableEq α] : List (α × β) → α → Option β
  | [], _ => none
  | p :: l, k => if p.1 = k then some p.2 else alistFind l k

/-- Remove the entry bound to `k`, as in `eina_hash_del`. -/
def alistRemove {α β : Type} [DecidableEq α] : List (α × β) → α → List (α × β)
  | [], _ => []
  | p :: l, k => if p.1 = k then l else p :: alistRemove l k

/-- Replace the value bound to `k` (mutation of the found record). -/
def alistUpdate {α β : Type} [DecidableEq α] : List (α × β) → α → β → List (α × β)
  | [], _, _ => []
  | p :: l, k, v => if p.1 = k then (k, v) :: l else p :: alistUpdate l k v

/-- Mutate the record with id `id` in the store (pointer update). -/
def storeModify (store : List (Nat × EinaFileMap)) (id : Nat)
    (g : EinaFileMap → EinaFileMap) : List (Nat × EinaFileMap) :=
  store.map (fun p => if p.1 = id then (p.1, g p.2) else p)

/-- One `mmap` invocation: consumes the next oracle result and counts a
creation when it succeeds. -/
def mmapCall (env : MmapEnv) (f : EinaFile) : EinaFile × Nat :=
  let a := env.result f.mmapCalls
  ({ f with mmapCalls := f.mmapCalls + 1,
            created := if a = MAP_FAILED_ADDR then f.created else f.created + 1 }, a)

/-- `eina_file_map_all`: create the whole-file mapping if absent (with
a huge-page retry when the file is larger than `EINA_HUGE_PAGE`), then
take a reference and return its address; `none` is `NULL`.  The
`populate` rule only issues advisory `madvise`/page-touch calls and
does not affect this state. -/
def eina_file_map_all (env : MmapEnv) (file : EinaFile) : EinaFile × Option Nat :=
  let r :=
    if file.global_map = MAP_FAILED_ADDR then
      let r1 := mmapCall env file
      if r1.2 = MAP_FAILED_ADDR ∧ EINA_HUGE_PAGE < file.length then
        mmapCall env r1.1
      else r1
    else (file, file.global_map)
  let f2 := { r.1 with global_map := r.2 }
  if r.2 = MAP_FAILED_ADDR then (f2, none)
  else ({ f2 with global_refcount := f2.global_refcount + 1 }, some r.2)

/-- `eina_file_map_new(file, rule, offset, length)`: range-check
against the file size, delegate the whole-file window to
`eina_file_map_all`, then share an existing record for
`(offset, length)` or create a new one (refcount 0, then incremented
on the shared fall-through path, as in the C). -/
def eina_file_map_new (env : MmapEnv) (file : EinaFile)
    (offset length : Nat) : EinaFile × Option Nat :=
  if offset > file.length then (file, none)
  else if offset + length > file.length then (file, none)
  else if offset = 0 ∧ length = file.length then eina_file_map_all env file
  else
    match alistFind file.fmap (offset, length) with
    | some id =>
      match alistFind file.store id with
      | some m =>
        ({ file with store := storeModify file.store id
                       (fun r => { r with refcount := r.refcount + 1 }) }, some m.map)
      | none => (file, none)
    | none =>
      let r1 := mmapCall env file
      let r2 :=
        if r1.2 = MAP_FAILED_ADDR ∧ EINA_HUGE_PAGE < length then
          let rb := mmapCall env r1.1
          (rb.1, rb.2, false)
        else (r1.1, r1.2, decide (EINA_HUGE_PAGE < length))
      if r2.2.1 = MAP_FAILED_ADDR then (r2.1, none)
      else
        let m0 : EinaFileMap :=
          { map := r2.2.1, offset := offset, length := length,
            refcount := 0, hugetlb := r2.2.2, faulty := false }
        let f3 := { r2.1 with
                    store := (r2.1.nextId, m0) :: r2.1.store,
                    fmap := ((offset, length), r2.1.nextId) :: r2.1.fmap,
                    rmap := (r2.2.1, r2.1.nextId) :: r2.1.rmap,
                    nextId := r2.1.nextId + 1 }
        ({ f3 with store := storeModify f3.store r2.1.nextId
                     (fun r => { r with refcount := r.refcount + 1 }) }, some r2.2.1)

/-- `eina_file_map_free(file, map)`: release the whole-file mapping
when the address matches it, otherwise decrement the record found via
the reverse index, unmapping and removing it from both indices when the
refcount reaches zero.  Unknown addresses are a no-op. -/
def eina_file_map_free (file : EinaFile) (addr : Nat) : EinaFile :=
  if file.global_map = addr then
    let g := file.global_refcount - 1
    if 0 < g then { file with global_refcount := g }
    else { file with global_refcount := g, global_map := MAP_FAILED_ADDR,
                     destroyed := file.destroyed + 1 }
  else
    match alistFind file.rmap addr with
    | none => file
    | some id =>
      match alistFind file.store id with
      | none => file
      | some em =>
        if 0 < em.refcount - 1 then
          { file with store := storeModify file.store id
                        (fun r => { r with refcount := r.refcount - 1 }) }
        else
          { file with rmap := alistRemove file.rmap addr,
                      fmap := alistRemove file.fmap (em.offset, em.length),
                      store := alistRemove file.store id,
                      destroyed := file.destroyed + 1 }

/-- `eina_file_map_faulted`: fault state of the mapping at `addr`. -/
def eina_file_map_faulted (file : EinaFile) (addr : Nat) : Bool :=
  if file.global_map = addr then file.global_faulty
  else
    match alistFind file.rmap addr with
    | some id =>
      match alistFind file.store id with
      | some em => em.faulty
      | none => false
    | none => false

/-! ### The registry (`eina_file_open`) -/

/-- The stat snapshot fields `eina_file_open` consumes. -/
structure StatBuf where
  size : Nat
  mtime : Nat
  inode : Nat
  mtime_nsec : Nat
deriving DecidableEq

/-- `_eina_file_timestamp_compare`: the cached identity matches the
fresh stat (mtime, size, inode and — on Linux — nanosecond mtime). -/
def eina_file_timestamp_compare (f : EinaFile) (st : StatBuf) : Bool :=
  if f.mtime ≠ st.mtime then false
  else if f.length ≠ st.size then false
  else if f.inode ≠ st.inode then false
  else if f.mtime_nsec ≠ st.mtime_nsec then false
  else true

/-- The zero-initialized `Eina_File` built by `eina_file_open` from a
fresh descriptor and stat snapshot. -/
def freshEinaFile (st : StatBuf) (shared : Bool) : EinaFile :=
  { length := st.size, mtime := st.mtime, inode := st.inode,
    mtime_nsec := st.mtime_nsec, refcount := 0,
    store := [], fmap := [], rmap := [], nextId := 0,
    global_map := MAP_FAILED_ADDR, global_refcount := 0, global_faulty := false,
    shared := shared, mmapCalls := 0, created := 0, destroyed := 0 }

/-- The registry logic of `eina_file_open`, entered with the sanitized
`filename` and the fresh `fstat` snapshot: evict a cached handle whose
identity no longer matches, reuse a matching one, otherwise insert a
fresh handle; the returned handle's refcount is incremented. -/
def eina_file_open_reg (cache : List (String × EinaFile)) (filename : String)
    (st : StatBuf) (shared : Bool) : List (String × EinaFile) × EinaFile :=
  let found := alistFind cache filename
  let r :=
    match found with
    | some f =>
      if eina_file_timestamp_compare f st then (cache, some f)
      else (alistRemove cache filename, none)
    | none => (cache, none)
  match r.2 with
  | none =>
    let n := { freshEinaFile st shared with refcount := 1 }
    ((filename, n) :: r.1, n)
  | some f =>
    let f' := { f with refcount := f.refcount + 1 }
    (alistUpdate r.1 filename f', f')

/-! ### The fault propagator (`eina_file_mmap_faulty`) -/

/-- The range test of `eina_file_mmap_faulty`:
`addr < base + length && addr + page_size >= base`, in 64-bit pointer
arithmetic. -/
def faultHit (addr psize base len : Nat) : Prop :=
  addr < (base + len) % W ∧ base ≤ (addr + psize) % W

instance (addr psize base len : Nat) : Decidable (faultHit addr psize base len) := by
  unfold faultHit; infer_instance

/-- Scan the region table (records reached through the forward hash,
as `eina_hash_iterator_data_new(f->map)` does) for the first record
whose range matches the fault; return its id. -/
def findFaultWindow (store : List (Nat × EinaFileMap)) (addr psize : Nat) :
    List ((Nat × Nat) × Nat) → Option Nat
  | [] => none
  | e :: rest =>
    match alistFind store e.2 with
    | some m =>
      if faultHit addr psize m.map m.length then some e.2
      else findFaultWindow store addr psize rest
    | none => findFaultWindow store addr psize rest

/-- Per-handle body of `eina_file_mmap_faulty`: test the whole-file
mapping (the C tests `f->global_map` against `NULL`, which also lets a
`MAP_FAILED` sentinel through to the range test), then scan the
windows, marking at most the first match; the second component reports
whether a match was found. -/
def fileMarkFaulty (f : EinaFile) (addr psize : Nat) : EinaFile × Bool :=
  if f.global_map ≠ 0 ∧ faultHit addr psize f.global_map f.length then
    ({ f with global_faulty := true }, true)
  else
    match findFaultWindow f.store addr psize f.fmap with
    | some id =>
      ({ f with store := storeModify f.store id (fun r => { r with faulty := true }) }, true)
    | none => (f, false)

/-- `eina_file_mmap_faulty`: walk the registry, marking the first
matching mapping and stopping the scan as soon as a handle reports a
match. -/
def eina_file_mmap_faulty (addr psize : Nat) :
    List (String × EinaFile) → List (String × EinaFile)
  | [] => []
  | (k, f) :: rest =>
    let r := fileMarkFaulty f addr psize
    if r.2 then (k, r.1) :: rest
    else (k, r.1) :: eina_file_mmap_faulty addr psize rest

/-! ## Association-list and store lemmas -/

theorem alistFind_cons_self {α β : Type} [DecidableEq α] (k : α) (v : β) (l : List (α × β)) :
    alistFind ((k, v) :: l) k = some v := by
  simp [alistFind]

theorem alistRemove_cons_self {α β : Type} [DecidableEq α] (k : α) (v : β) (l : List (α × β)) :
    alistRemove ((k, v) :: l) k = l := by
  simp [alistRemove]

theorem storeModify_fresh (s : List (Nat × EinaFileMap)) (id : Nat)
    (g : EinaFileMap → EinaFileMap) (h : ∀ p ∈ s, p.1 ≠ id) :
    storeModify s id g = s := by
  induction s with
  | nil => rfl
  | cons p t ih =>
    have hp : p.1 ≠ id := h p (List.mem_cons_self p t)
    have ht : ∀ q ∈ t, q.1 ≠ id := fun q hq => h q (List.mem_cons_of_mem p hq)
    simp [storeModify, hp, List.map] at *
    exact ih ht

theorem storeModify_cons_self (id : Nat) (m : EinaFileMap)
    (s : List (Nat × EinaFileMap)) (g : EinaFileMap → EinaFileMap)
    (h : ∀ p ∈ s, p.1 ≠ id) :
    storeModify ((id, m) :: s) id g = (id, g m) :: s := by
  have := storeModify_fresh s id g h
  simp [storeModify] at this ⊢
  exact this

/-! ## Theorems -/

/-- `eina_file_map_all` never touches the region table. -/
theorem map_all_region_frame (env : MmapEnv) (f : EinaFile) :
    (eina_file_map_all env f).1.fmap = f.fmap ∧
    (eina_file_map_all env f).1.rmap = f.rmap ∧
    (eina_file_map_all env f).1.store = f.store := by
  unfold eina_file_map_all mmapCall
  by_cases h1 : f.global_map = MAP_FAILED_ADDR <;>
    by_cases h2 : env.result f.mmapCalls = MAP_FAILED_ADDR ∧ EINA_HUGE_PAGE < f.length <;>
      simp only [h1, h2, if_true, if_false] <;> (try split_ifs) <;> simp_all

/-- C2: a window request with `offset > size` or `offset + length >
size` yields `NULL` (the out-of-range error), and every `NULL`-returning
`eina_file_map_new` call leaves the region table — forward index,
reverse index, and every record with its refcount — unchanged. -/
theorem map_new_out_of_range_frame (env : MmapEnv) (file : EinaFile)
    (offset length : Nat) :
    ((file.length < offset ∨ file.length < offset + length) →
      (eina_file_map_new env file offset length).2 = none) ∧
    ((eina_file_map_new env file offset length).2 = none →
      (eina_file_map_new env file offset length).1.fmap = file.fmap ∧
      (eina_file_map_new env file offset length).1.rmap = file.rmap ∧
      (eina_file_map_new env file offset length).1.store = file.store) := by
  constructor
  · intro h
    unfold eina_file_map_new
    rcases h with h | h
    · simp [h]
    · rcases Nat.lt_or_ge file.length offset with h2 | h2
      · simp [h2]
      · simp [Nat.not_lt.mpr h2, h]
  · intro hnone
    by_cases h1 : file.length < offset
    · simp [eina_file_map_new, h1]
    by_cases h2 : file.length < offset + length
    · simp [eina_file_map_new, h1, h2]
    by_cases h3 : offset = 0 ∧ length = file.length
    · have := map_all_region_frame env file
      simpa [eina_file_map_new, h1, h2, h3] using this
    · rcases hf : alistFind file.fmap (offset, length) with _ | id
      · -- creation path: on `mmap` failure nothing was inserted
        simp only [eina_file_map_new, h1, h2, h3, hf] at hnone ⊢
        simp only [mmapCall] at hnone ⊢
        split_ifs at hnone ⊢ <;> simp_all
      · rcases hs : alistFind file.store id with _ | m
        · simp [eina_file_map_new, h1, h2, h3, hf, hs]
        · simp [eina_file_map_new, h1, h2, h3, hf, hs] at hnone

/-- Witness for `map_new_out_of_range_frame`: a 100-byte file and the
window `(40, 70)`, which exceeds the file size. -/
theorem map_new_out_of_range_frame_witness :
    (eina_file_map_new ⟨fun n => 100 + n⟩ (freshEinaFile ⟨100, 0, 0, 0⟩ false) 40 70).2
        = none ∧
      (eina_file_map_new ⟨fun n => 100 + n⟩ (freshEinaFile ⟨100, 0, 0, 0⟩ false) 40 70).1.fmap
        = (freshEinaFile ⟨100, 0, 0, 0⟩ false).fmap := by
  have h := map_new_out_of_range_frame ⟨fun n => 100 + n⟩
    (freshEinaFile ⟨100, 0, 0, 0⟩ false) 40 70
  have hn := h.1 (Or.inr (by decide))
  exact ⟨hn, (h.2 hn).1⟩

/-- Iterated `eina_file_map_all`, collecting the returned addresses. -/
def mapAllIter (env : MmapEnv) : EinaFile → Nat → EinaFile × List (Option Nat)
  | f, 0 => (f, [])
  | f, n + 1 =>
    let r := eina_file_map_all env f
    let k := mapAllIter env r.1 n
    (k.1, r.2 :: k.2)

/-- Iterated `eina_file_map_free` at a fixed address. -/
def mapFreeIter (addr : Nat) : EinaFile → Nat → EinaFile
  | f, 0 => f
  | f, n + 1 => mapFreeIter addr (eina_file_map_free f addr) n

/-- `eina_file_map_all` when the whole-file mapping is already alive:
share it and take one more reference. -/
theorem map_all_alive (env : MmapEnv) (f : EinaFile)
    (h : f.global_map ≠ MAP_FAILED_ADDR) :
    eina_file_map_all env f =
      ({ f with global_refcount := f.global_refcount + 1 }, some f.global_map) := by
  unfold eina_file_map_all
  simp [h]

/-- First `eina_file_map_all` on a handle with no whole-file mapping,
with a succeeding `mmap`. -/
theorem map_all_first (env : MmapEnv) (f : EinaFile)
    (hg : f.global_map = MAP_FAILED_ADDR)
    (ha : env.result f.mmapCalls ≠ MAP_FAILED_ADDR) :
    eina_file_map_all env f =
      ({ f with global_map := env.result f.mmapCalls,
                global_refcount := f.global_refcount + 1,
                mmapCalls := f.mmapCalls + 1,
                created := f.created + 1 }, some (env.result f.mmapCalls)) := by
  unfold eina_file_map_all mmapCall
  simp [hg, ha]

/-- Iterating `eina_file_map_all` over a live whole-file mapping only
bumps the refcount and keeps returning the same address. -/
theorem mapAllIter_alive (env : MmapEnv) (n : Nat) : ∀ (f : EinaFile),
    f.global_map ≠ MAP_FAILED_ADDR →
    mapAllIter env f n =
      ({ f with global_refcount := f.global_refcount + n },
       List.replicate n (some f.global_map)) := by
  induction n with
  | zero => intro f _; simp [mapAllIter]
  | succ n ih =>
    intro f h
    rw [mapAllIter, map_all_alive env f h]
    rw [ih { f with global_refcount := f.global_refcount + 1 } h]
    simp [List.replicate_succ, add_assoc, add_comm 1 (n : Int)]

/-- Unwinding `n` references releases the mapping exactly at the last
free. -/
theorem mapFreeIter_release (n : Nat) : ∀ (f : EinaFile) (a : Nat),
    1 ≤ n → f.global_map = a → a ≠ MAP_FAILED_ADDR → f.global_refcount = n →
    mapFreeIter a f n =
      { f with global_refcount := 0, global_map := MAP_FAILED_ADDR,
               destroyed := f.destroyed + 1 } := by
  induction n with
  | zero => omega
  | succ n ih =>
    intro f a _ hg ha hr
    rcases Nat.eq_zero_or_pos n with hn | hn
    · subst hn
      rw [mapFreeIter, eina_file_map_free]
      rw [if_pos hg, hr]
      norm_num [mapFreeIter]
    · rw [mapFreeIter, eina_file_map_free, if_pos hg, hr]
      have hpos : (0 : Int) < (n + 1 : Nat) - 1 := by push_cast; omega
      rw [if_pos hpos]
      have := ih { f with global_refcount := (n + 1 : Nat) - 1 } a hn hg ha
        (by push_cast; push_cast at *; omega)
      rw [this]

/-- C3: from a handle with no whole-file mapping and a zero
whole-file refcount, `K ≥ 1` calls of `eina_file_map_all` (with the
single `mmap` succeeding) all return the same non-`NULL` address, share
one OS mapping (`created` grows by exactly one) and leave
`global_refcount = K`; `K` matching `eina_file_map_free` calls then
release the mapping exactly once and clear it from the handle. -/
theorem map_all_shared_and_released (env : MmapEnv) (f : EinaFile) (K : Nat)
    (hK : 1 ≤ K) (hg : f.global_map = MAP_FAILED_ADDR) (hr : f.global_refcount = 0)
    (ha : env.result f.mmapCalls ≠ MAP_FAILED_ADDR) :
    (mapAllIter env f K).2 = List.replicate K (some (env.result f.mmapCalls)) ∧
    (mapAllIter env f K).1.global_map = env.result f.mmapCalls ∧
    (mapAllIter env f K).1.global_refcount = K ∧
    (mapAllIter env f K).1.created = f.created + 1 ∧
    (mapFreeIter (env.result f.mmapCalls) (mapAllIter env f K).1 K).global_map =
      MAP_FAILED_ADDR ∧
    (mapFreeIter (env.result f.mmapCalls) (mapAllIter env f K).1 K).global_refcount = 0 ∧
    (mapFreeIter (env.result f.mmapCalls) (mapAllIter env f K).1 K).destroyed =
      f.destroyed + 1 := by
  obtain ⟨K', rfl⟩ : ∃ K', K = K' + 1 := ⟨K - 1, by omega⟩
  set a := env.result f.mmapCalls with haeq
  have h1 : mapAllIter env f (K' + 1) =
      ({ f with global_map := a, global_refcount := f.global_refcount + 1 + K',
                mmapCalls := f.mmapCalls + 1, created := f.created + 1 },
       some a :: List.replicate K' (some a)) := by
    rw [mapAllIter, map_all_first env f hg ha]
    rw [mapAllIter_alive env K' _ (by simpa using ha)]
  rw [h1]
  refine ⟨by simp [List.replicate_succ], rfl, by push_cast [hr]; ring, rfl, ?_, ?_, ?_⟩ <;>
    rw [mapFreeIter_release (K' + 1) _ a (by omega) rfl ha
      (by push_cast [hr]; ring)]

/-- Witness for `map_all_shared_and_released`: three `map_all` calls
then three frees on a fresh 100-byte handle. -/
theorem map_all_shared_and_released_witness :
    (mapAllIter ⟨fun n => 100 + n⟩ (freshEinaFile ⟨100, 0, 0, 0⟩ false) 3).2 =
      List.replicate 3 (some 100) ∧
    (mapAllIter ⟨fun n => 100 + n⟩ (freshEinaFile ⟨100, 0, 0, 0⟩ false) 3).1.global_refcount
      = 3 ∧
    (mapFreeIter 100
      (mapAllIter ⟨fun n => 100 + n⟩ (freshEinaFile ⟨100, 0, 0, 0⟩ false) 3).1
      3).global_map = MAP_FAILED_ADDR := by
  have h := map_all_shared_and_released ⟨fun n => 100 + n⟩
    (freshEinaFile ⟨100, 0, 0, 0⟩ false) 3 (by omega) (by decide) (by decide) (by decide)
  exact ⟨h.1, h.2.2.1, h.2.2.2.2.1⟩

/-! ### Interleaved window map/unmap sequences (C1) -/

/-- One step of an interleaved scenario at a fixed `(offset, length)`
window. -/
inductive MapOp where
  | mapNew : MapOp
  | mapFree : MapOp
deriving DecidableEq

/-- Run a sequence of `eina_file_map_new(offset, length)` /
`eina_file_map_free(addr)` calls, collecting the address returned by
each map call. -/
def runWindowOps (env : MmapEnv) (offset length addr : Nat) :
    EinaFile → List MapOp → EinaFile × List (Option Nat)
  | f, [] => (f, [])
  | f, MapOp.mapNew :: rest =>
    let r := eina_file_map_new env f offset length
    let k := runWindowOps env offset length addr r.1 rest
    (k.1, r.2 :: k.2)
  | f, MapOp.mapFree :: rest =>
    runWindowOps env offset length addr (eina_file_map_free f addr) rest

/-- The window record as created by `eina_file_map_new`, at refcount
`rc`. -/
def winRecord (addr offset length : Nat) (rc : Nat) : EinaFileMap :=
  { map := addr, offset := offset, length := length, refcount := (rc : Int),
    hugetlb := decide (EINA_HUGE_PAGE < length), faulty := false }

/-- The handle state while one extra window record is alive with
refcount `rc`: the record sits in the store under the fresh id and at
the head of both region-table indices. -/
def midState (f : EinaFile) (offset length addr : Nat) (rc : Nat) : EinaFile :=
  { f with store := (f.nextId, winRecord addr offset length rc) :: f.store,
           fmap := ((offset, length), f.nextId) :: f.fmap,
           rmap := (addr, f.nextId) :: f.rmap,
           nextId := f.nextId + 1,
           mmapCalls := f.mmapCalls + 1,
           created := f.created + 1 }

/-- A first `eina_file_map_new` on an absent window creates the record
(one `mmap`), inserts it into both indices and returns its address. -/
theorem map_new_create (env : MmapEnv) (f : EinaFile) (offset length : Nat)
    (ho : ¬ f.length < offset) (hol : ¬ f.length < offset + length)
    (hw : ¬(offset = 0 ∧ length = f.length))
    (hkey : alistFind f.fmap (offset, length) = none)
    (ha : env.result f.mmapCalls ≠ MAP_FAILED_ADDR)
    (hfresh : ∀ p ∈ f.store, p.1 ≠ f.nextId) :
    eina_file_map_new env f offset length =
      (midState f offset length (env.result f.mmapCalls) 1,
       some (env.result f.mmapCalls)) := by
  unfold eina_file_map_new mmapCall
  simp only [ho, hol, hw, hkey, ha, if_false, false_and, if_neg, ite_false,
    not_false_eq_true, if_true]
  rw [storeModify_cons_self _ _ _ _ hfresh]
  simp [midState, winRecord]

/-- While the window is alive, `eina_file_map_new` finds the record,
bumps its refcount and returns the shared address — no `mmap`. -/
theorem map_new_share (env : MmapEnv) (f : EinaFile) (offset length addr rc : Nat)
    (ho : ¬ f.length < offset) (hol : ¬ f.length < offset + length)
    (hw : ¬(offset = 0 ∧ length = f.length))
    (hfresh : ∀ p ∈ f.store, p.1 ≠ f.nextId) :
    eina_file_map_new env (midState f offset length addr rc) offset length =
      (midState f offset length addr (rc + 1), some addr) := by
  unfold eina_file_map_new
  simp only [midState, ho, hol, hw, if_false, alistFind_cons_self]
  rw [storeModify_cons_self _ _ _ _ hfresh]
  simp [winRecord, midState]

/-- `eina_file_map_free` on a window whose refcount is at least 2 only
decrements the refcount. -/
theorem map_free_keep (f : EinaFile) (offset length addr rc : Nat) (hrc : 2 ≤ rc)
    (hga : f.global_map ≠ addr)
    (hfresh : ∀ p ∈ f.store, p.1 ≠ f.nextId) :
    eina_file_map_free (midState f offset length addr rc) addr =
      midState f offset length addr (rc - 1) := by
  have hpos : (0 : Int) < (rc : Int) - 1 := by
    have : (2 : Int) ≤ (rc : Int) := by exact_mod_cast hrc
    omega
  unfold eina_file_map_free
  simp only [midState, alistFind_cons_self, if_neg hga, winRecord, hpos, if_true]
  rw [storeModify_cons_self _ _ _ _ hfresh]
  simp [Nat.cast_sub (show 1 ≤ rc by omega)]

/-- The `eina_file_map_free` that brings the window refcount to zero
unmaps it and removes it from the store and from both indices. -/
theorem map_free_last (f : EinaFile) (offset length addr : Nat)
    (hga : f.global_map ≠ addr) :
    eina_file_map_free (midState f offset length addr 1) addr =
      { f with nextId := f.nextId + 1, mmapCalls := f.mmapCalls + 1,
               created := f.created + 1, destroyed := f.destroyed + 1 } := by
  unfold eina_file_map_free
  simp only [midState, alistFind_cons_self, if_neg hga, winRecord]
  norm_num [alistRemove_cons_self]

/-- Run lemma: from the alive state at refcount `rc ≥ 1`, any
interleaving whose running free-count stays strictly below
map-count + `rc` until the last step, and which ends exactly balanced,
restores the original region table, destroys exactly one OS mapping and
returns the shared address from every map call. -/
theorem runOps_mid (env : MmapEnv) (f : EinaFile) (offset length addr : Nat)
    (ho : ¬ f.length < offset) (hol : ¬ f.length < offset + length)
    (hw : ¬(offset = 0 ∧ length = f.length))
    (hga : f.global_map ≠ addr)
    (hfresh : ∀ p ∈ f.store, p.1 ≠ f.nextId) :
    ∀ (ops : List MapOp) (rc : Nat), 1 ≤ rc →
      (∀ k, k < ops.length →
        (ops.take k).count MapOp.mapFree < (ops.take k).count MapOp.mapNew + rc) →
      (ops.count MapOp.mapFree = ops.count MapOp.mapNew + rc) →
      runWindowOps env offset length addr (midState f offset length addr rc) ops =
        ({ f with nextId := f.nextId + 1, mmapCalls := f.mmapCalls + 1,
                  created := f.created + 1, destroyed := f.destroyed + 1 },
         List.replicate (ops.count MapOp.mapNew) (some addr)) := by
  intro ops
  induction ops with
  | nil =>
    intro rc h1 _ h3
    simp only [List.count_nil] at h3
    omega
  | cons op rest ih =>
    intro rc h1 hpre htot
    cases op with
    | mapNew =>
      rw [runWindowOps, map_new_share env f offset length addr rc ho hol hw hfresh]
      rw [ih (rc + 1) (by omega)
        (by intro k hk
            have := hpre (k + 1) (by simpa using Nat.succ_lt_succ hk)
            simp [List.count_cons] at this ⊢
            omega)
        (by simp [List.count_cons] at htot ⊢; omega)]
      simp [List.count_cons, List.replicate_succ]
    | mapFree =>
      cases rest with
      | nil =>
        simp only [List.count_cons, List.count_nil] at htot
        have hrc1 : rc = 1 := by simp at htot; omega
        subst hrc1
        rw [runWindowOps, map_free_last f offset length addr hga]
        simp [runWindowOps, List.count_cons]
      | cons r rest' =>
        have h2 : 2 ≤ rc := by
          have := hpre 1 (by simp)
          simpa [List.count_cons] using this
        rw [runWindowOps, map_free_keep f offset length addr rc h2 hga hfresh]
        rw [ih (rc - 1) (by omega)
          (by intro k hk
              have := hpre (k + 1) (by simpa using Nat.succ_lt_succ hk)
              simp [List.count_cons] at this ⊢
              omega)
          (by simp [List.count_cons] at htot ⊢; omega)]
        simp [List.count_cons]

/-- C1 (amended): for a window that is not the whole file, any
interleaving of `N` `eina_file_map_new(offset, length)` calls with `N`
`eina_file_map_free` calls on the returned address *in which the free
count stays strictly below the map count until the final free* creates
exactly one OS mapping (by the first map call) and destroys exactly one
(by the last free), restores the forward index, reverse index and
record store exactly, and returns the same shared address from every
map call; the intermediate calls only adjust the refcount. -/
theorem map_window_paired_single_mapping (env : MmapEnv) (f : EinaFile)
    (offset length : Nat) (ops : List MapOp)
    (ho : ¬ f.length < offset) (hol : ¬ f.length < offset + length)
    (hw : ¬(offset = 0 ∧ length = f.length))
    (hkey : alistFind f.fmap (offset, length) = none)
    (ha : env.result f.mmapCalls ≠ MAP_FAILED_ADDR)
    (hga : f.global_map ≠ env.result f.mmapCalls)
    (hfresh : ∀ p ∈ f.store, p.1 ≠ f.nextId)
    (hne : ops ≠ [])
    (hpre : ∀ k, 0 < k → k < ops.length →
      (ops.take k).count MapOp.mapFree < (ops.take k).count MapOp.mapNew)
    (htot : ops.count MapOp.mapFree = ops.count MapOp.mapNew) :
    runWindowOps env offset length (env.result f.mmapCalls) f ops =
      ({ f with nextId := f.nextId + 1, mmapCalls := f.mmapCalls + 1,
                created := f.created + 1, destroyed := f.destroyed + 1 },
       List.replicate (ops.count MapOp.mapNew) (some (env.result f.mmapCalls))) := by
  cases ops with
  | nil => exact absurd rfl hne
  | cons op rest =>
    cases op with
    | mapFree =>
      exfalso
      cases rest with
      | nil => simp [List.count_cons] at htot
      | cons r rest' =>
        have := hpre 1 (by omega) (by simp)
        simp [List.count_cons] at this
    | mapNew =>
      rw [runWindowOps,
        map_new_create env f offset length ho hol hw hkey ha hfresh]
      rw [runOps_mid env f offset length (env.result f.mmapCalls) ho hol hw hga hfresh
        rest 1 (by omega)
        (by intro k hk
            rcases Nat.eq_zero_or_pos k with h0 | h0
            · subst h0; simp
            · have := hpre (k + 1) (by omega) (by simpa using Nat.succ_lt_succ hk)
              simpa [List.count_cons] using this)
        (by simpa [List.count_cons] using htot)]
      simp [List.count_cons, List.replicate_succ]

/-- C1 counterexample: the claim quantifies over *every* interleaving
of paired map/free calls, but when a free brings the refcount to zero
before the sequence is over, the record dies and the next map call
creates a second OS mapping at a new address.  Interleaving
map, free, map, free of a `(0, 10)` window on a 100-byte file (each
free on the address the preceding map returned) performs two mapping
creations and two destructions, and the two map calls return different
addresses — not one creation, and not one shared address. -/
theorem map_window_recreation_interleaving :
    (let env : MmapEnv := ⟨fun n => 100 + n⟩
     let f0 := freshEinaFile ⟨100, 0, 0, 0⟩ false
     let r1 := eina_file_map_new env f0 0 10
     let f2 := eina_file_map_free r1.1 100
     let r3 := eina_file_map_new env f2 0 10
     let f4 := eina_file_map_free r3.1 101
     r1.2 = some 100 ∧ r3.2 = some 101 ∧
       f4.created = 2 ∧ f4.destroyed = 2 ∧ f4.store = []) ∧
    (2 ≠ 1 ∧ some (100 : Nat) ≠ some 101) := by
  constructor
  · refine ⟨by decide, by decide, by decide, by decide, by decide⟩
  · decide

/-- Witness for `map_window_paired_single_mapping`: the interleaving
map, map, free, free at window `(0, 10)` of a fresh 100-byte handle. -/
theorem map_window_paired_single_mapping_witness :
    runWindowOps ⟨fun n => 100 + n⟩ 0 10 100 (freshEinaFile ⟨100, 0, 0, 0⟩ false)
        [MapOp.mapNew, MapOp.mapNew, MapOp.mapFree, MapOp.mapFree] =
      ({ freshEinaFile ⟨100, 0, 0, 0⟩ false with
           nextId := 1, mmapCalls := 1, created := 1, destroyed := 1 },
       [some 100, some 100]) := by
  have h := map_window_paired_single_mapping ⟨fun n => 100 + n⟩
    (freshEinaFile ⟨100, 0, 0, 0⟩ false) 0 10
    [MapOp.mapNew, MapOp.mapNew, MapOp.mapFree, MapOp.mapFree]
    (by decide) (by decide) (by decide) (by decide) (by decide) (by decide)
    (by intro p hp; simp [freshEinaFile] at hp)
    (by decide)
    (by intro k hk1 hk2
        simp only [List.length_cons, List.length_nil] at hk2
        interval_cases k <;> decide)
    (by decide)
  exact h

/-! ### Fault isolation (C8) -/

/-- Everything in a mapping record except its `faulty` flag. -/
def winSkeleton (m : EinaFileMap) : Nat × Nat × Nat × Int × Bool :=
  (m.map, m.offset, m.length, m.refcount, m.hugetlb)

/-- Everything in a handle except its faulty flags: identity, open and
mapping refcounts, both region-table indices, all record skeletons and
the instrumentation counters. -/
def fileSkeleton (f : EinaFile) :=
  (f.length, f.mtime, f.inode, f.mtime_nsec, f.refcount,
   f.fmap, f.rmap, f.store.map (fun p => (p.1, winSkeleton p.2)),
   f.nextId, f.global_map, f.global_refcount, f.shared,
   f.mmapCalls, f.created, f.destroyed)

/-- The faulty flags of one handle: the whole-file flag followed by the
window flags in store order. -/
def fileFaultyFlags (f : EinaFile) : List Bool :=
  f.global_faulty :: f.store.map (fun p => p.2.faulty)

/-- All faulty flags across the registry. -/
def cacheFaultyFlags (c : List (String × EinaFile)) : List Bool :=
  (c.map (fun p => fileFaultyFlags p.2)).flatten

/-- Marking one record faulty does not change any record skeleton. -/
theorem storeModify_faulty_skel (s : List (Nat × EinaFileMap)) (id : Nat) :
    (storeModify s id (fun r => { r with faulty := true })).map
        (fun p => (p.1, winSkeleton p.2)) =
      s.map (fun p => (p.1, winSkeleton p.2)) := by
  unfold storeModify
  rw [List.map_map]
  refine List.map_congr_left ?_
  intro p _
  by_cases h : p.1 = id <;> simp [h, winSkeleton]

/-- Marking one record faulty flips at most one flag, and only from
`false` to `true`, provided store ids are unique. -/
theorem storeModify_faulty_flags (s : List (Nat × EinaFileMap)) (id : Nat)
    (hnd : (s.map Prod.fst).Nodup) :
    List.Forall₂ (fun b b' => b = true → b' = true)
      (s.map (fun p => p.2.faulty))
      ((storeModify s id (fun r => { r with faulty := true })).map
        (fun p => p.2.faulty)) ∧
    ((storeModify s id (fun r => { r with faulty := true })).map
        (fun p => p.2.faulty)).count true ≤
      (s.map (fun p => p.2.faulty)).count true + 1 := by
  induction s with
  | nil => simp [storeModify]
  | cons p t ih =>
    simp only [List.map_cons, List.nodup_cons] at hnd
    obtain ⟨hp, ht⟩ := hnd
    by_cases h : p.1 = id
    · have htail : storeModify t id (fun r => { r with faulty := true }) = t := by
        apply storeModify_fresh
        intro q hq he
        apply hp
        have hmem : q.1 ∈ List.map Prod.fst t := List.mem_map_of_mem Prod.fst hq
        rw [he, ← h] at hmem
        exact hmem
      have hcons : storeModify (p :: t) id (fun r => { r with faulty := true }) =
          (p.1, { p.2 with faulty := true }) :: t := by
        simp only [storeModify, List.map_cons, if_pos h]
        exact congrArg _ htail
      rw [hcons]
      constructor
      · exact List.Forall₂.cons (fun _ => rfl)
          (List.forall₂_same.mpr (fun b _ hb => hb))
      · cases hpf : p.2.faulty <;> simp [List.count_cons, hpf]
    · have hcons : storeModify (p :: t) id (fun r => { r with faulty := true }) =
          p :: storeModify t id (fun r => { r with faulty := true }) := by
        simp only [storeModify, List.map_cons, if_neg h]
      rw [hcons]
      obtain ⟨ih1, ih2⟩ := ih ht
      constructor
      · exact List.Forall₂.cons (fun hb => hb) ih1
      · simp only [List.map_cons, List.count_cons]
        cases hpf : p.2.faulty <;> simp [hpf] <;> omega

/-- Per-handle behavior of the fault propagator: the handle skeleton is
preserved, at most one faulty flag flips and only to `true`, and when no
match is found the handle is untouched. -/
theorem fileMarkFaulty_spec (f : EinaFile) (addr psize : Nat)
    (hnd : (f.store.map Prod.fst).Nodup) :
    fileSkeleton (fileMarkFaulty f addr psize).1 = fileSkeleton f ∧
    List.Forall₂ (fun b b' => b = true → b' = true)
      (fileFaultyFlags f) (fileFaultyFlags (fileMarkFaulty f addr psize).1) ∧
    (fileFaultyFlags (fileMarkFaulty f addr psize).1).count true ≤
      (fileFaultyFlags f).count true + 1 ∧
    ((fileMarkFaulty f addr psize).2 = false → (fileMarkFaulty f addr psize).1 = f) := by
  by_cases hg : f.global_map ≠ 0 ∧ faultHit addr psize f.global_map f.length
  · have heq : fileMarkFaulty f addr psize = ({ f with global_faulty := true }, true) := by
      unfold fileMarkFaulty; rw [if_pos hg]
    rw [heq]
    refine ⟨rfl, ?_, ?_, by simp⟩
    · exact List.Forall₂.cons (fun _ => rfl)
        (List.forall₂_same.mpr (fun b _ hb => hb))
    · cases hgf : f.global_faulty <;> simp [fileFaultyFlags, List.count_cons, hgf]
  · cases hfw : findFaultWindow f.store addr psize f.fmap with
    | none =>
      have heq : fileMarkFaulty f addr psize = (f, false) := by
        unfold fileMarkFaulty; rw [if_neg hg, hfw]
      rw [heq]
      exact ⟨rfl, List.forall₂_same.mpr (fun b _ hb => hb), Nat.le_succ _, fun _ => rfl⟩
    | some id =>
      have heq : fileMarkFaulty f addr psize =
          ({ f with store :=
               storeModify f.store id (fun r => { r with faulty := true }) }, true) := by
        unfold fileMarkFaulty; rw [if_neg hg, hfw]
      rw [heq]
      obtain ⟨m1, m2⟩ := storeModify_faulty_flags f.store id hnd
      refine ⟨?_, ?_, ?_, by simp⟩
      · simp [fileSkeleton, storeModify_faulty_skel]
      · exact List.Forall₂.cons (fun hb => hb) m1
      · cases hgf : f.global_faulty <;>
          simp only [fileFaultyFlags, List.count_cons, hgf] <;>
          simp <;> omega

/-- A handle with no whole-file mapping (`global_map = MAP_FAILED`)
never gets its whole-file flag marked: the range test against the
`MAP_FAILED` sentinel cannot pass for a fault address below the top of
the address space. -/
theorem fileMarkFaulty_no_global (f : EinaFile) (addr psize : Nat)
    (hreal : addr + psize < W - 1) (hg : f.global_map = MAP_FAILED_ADDR) :
    (fileMarkFaulty f addr psize).1.global_faulty = f.global_faulty := by
  have hcond : ¬ (f.global_map ≠ 0 ∧ faultHit addr psize f.global_map f.length) := by
    rintro ⟨-, -, h2⟩
    rw [hg] at h2
    have hlt : addr + psize < W := by unfold W at *; omega
    rw [Nat.mod_eq_of_lt hlt] at h2
    unfold MAP_FAILED_ADDR at h2
    omega
  unfold fileMarkFaulty
  rw [if_neg hcond]
  cases hfw : findFaultWindow f.store addr psize f.fmap <;> simp

/-- C8: one invocation of `eina_file_mmap_faulty` marks at most one
mapping faulty and changes nothing else: every handle keeps its
identity, refcounts, region-table indices and record skeletons; faulty
flags only ever go from `false` to `true`; at most one flag in the
whole registry flips; and a handle with no whole-file mapping never has
its whole-file flag touched (for any realistic fault address below the
top of the address space). -/
theorem mmap_faulty_isolation (addr psize : Nat) (c : List (String × EinaFile))
    (hnd : ∀ p ∈ c, (p.2.store.map Prod.fst).Nodup)
    (hreal : addr + psize < W - 1) :
    (eina_file_mmap_faulty addr psize c).map (fun p => (p.1, fileSkeleton p.2)) =
      c.map (fun p => (p.1, fileSkeleton p.2)) ∧
    List.Forall₂ (fun b b' => b = true → b' = true)
      (cacheFaultyFlags c) (cacheFaultyFlags (eina_file_mmap_faulty addr psize c)) ∧
    (cacheFaultyFlags (eina_file_mmap_faulty addr psize c)).count true ≤
      (cacheFaultyFlags c).count true + 1 ∧
    List.Forall₂ (fun p p' => p.2.global_map = MAP_FAILED_ADDR →
        p'.2.global_faulty = p.2.global_faulty)
      c (eina_file_mmap_faulty addr psize c) := by
  induction c with
  | nil =>
    exact ⟨rfl, List.Forall₂.nil, Nat.le_succ _, List.Forall₂.nil⟩
  | cons p rest ih =>
    obtain ⟨k, f⟩ := p
    have hf := fileMarkFaulty_spec f addr psize (hnd (k, f) (by simp))
    have hng := fun hgm => fileMarkFaulty_no_global f addr psize hreal hgm
    have hjoin : ∀ l, cacheFaultyFlags ((k, f) :: l) =
        fileFaultyFlags f ++ cacheFaultyFlags l := by
      intro l; simp [cacheFaultyFlags]
    rw [eina_file_mmap_faulty]
    by_cases hhit : (fileMarkFaulty f addr psize).2
    · rw [if_pos hhit]
      have hjoin2 : cacheFaultyFlags ((k, (fileMarkFaulty f addr psize).1) :: rest) =
          fileFaultyFlags (fileMarkFaulty f addr psize).1 ++ cacheFaultyFlags rest := by
        simp [cacheFaultyFlags]
      refine ⟨?_, ?_, ?_, ?_⟩
      · simp [hf.1]
      · rw [hjoin rest, hjoin2]
        exact List.rel_append hf.2.1 (List.forall₂_same.mpr (fun b _ hb => hb))
      · rw [hjoin rest, hjoin2]
        simp only [List.count_append]
        have := hf.2.2.1
        omega
      · exact List.Forall₂.cons
          (fun hgm => hng hgm)
          (List.forall₂_same.mpr (fun q _ _ => rfl))
    · rw [if_neg hhit]
      have hfix : (fileMarkFaulty f addr psize).1 = f :=
        hf.2.2.2 (by simpa using hhit)
      obtain ⟨ih1, ih2, ih3, ih4⟩ := ih (fun q hq => hnd q (by simp [hq]))
      refine ⟨?_, ?_, ?_, ?_⟩
      · simp [hfix, ih1]
      · rw [hjoin rest, hfix, hjoin]
        exact List.rel_append (List.forall₂_same.mpr (fun b _ hb => hb)) ih2
      · rw [hjoin rest, hfix, hjoin]
        simp only [List.count_append]
        omega
      · exact List.Forall₂.cons (fun _ => by rw [hfix]) ih4

/-- Witness for `mmap_faulty_isolation`: a two-handle registry — one
handle with no whole-file mapping, one whose whole-file mapping spans
`[5000, 5100)` — hit at fault address 5050 with 4096-byte pages. -/
theorem mmap_faulty_isolation_witness :
    (eina_file_mmap_faulty 5050 4096
        [("/a", freshEinaFile ⟨10, 0, 0, 0⟩ false),
         ("/b", { freshEinaFile ⟨100, 0, 0, 0⟩ false with
                  global_map := 5000, global_refcount := 1 })]).map
        (fun p => (p.1, fileSkeleton p.2)) =
      ([("/a", freshEinaFile ⟨10, 0, 0, 0⟩ false),
        ("/b", { freshEinaFile ⟨100, 0, 0, 0⟩ false with
                 global_map := 5000, global_refcount := 1 })]).map
        (fun p => (p.1, fileSkeleton p.2)) ∧
    (cacheFaultyFlags
        (eina_file_mmap_faulty 5050 4096
          [("/a", freshEinaFile ⟨10, 0, 0, 0⟩ false),
           ("/b", { freshEinaFile ⟨100, 0, 0, 0⟩ false with
                    global_map := 5000, global_refcount := 1 })])).count true ≤
      (cacheFaultyFlags
          [("/a", freshEinaFile ⟨10, 0, 0, 0⟩ false),
           ("/b", { freshEinaFile ⟨100, 0, 0, 0⟩ false with
                    global_map := 5000, global_refcount := 1 })]).count true + 1 := by
  have h := mmap_faulty_isolation 5050 4096
    [("/a", freshEinaFile ⟨10, 0, 0, 0⟩ false),
     ("/b", { freshEinaFile ⟨100, 0, 0, 0⟩ false with
              global_map := 5000, global_refcount := 1 })]
    (by intro p hp; fin_cases hp <;> simp [freshEinaFile])
    (by decide)
  exact ⟨h.1, h.2.2.1⟩

/-- C7: when `eina_file_open` finds a cached handle whose stored
identity no longer matches the fresh stat snapshot, it does not reuse
it: the stale entry is dropped from the registry table, and the handle
returned (and now registered) is a freshly created one carrying the new
snapshot, with an open refcount of 1 — in particular it is not the
stale handle. -/
theorem open_stale_eviction (cache : List (String × EinaFile)) (filename : String)
    (st : StatBuf) (shared : Bool) (f : EinaFile)
    (hfind : alistFind cache filename = some f)
    (hstale : eina_file_timestamp_compare f st = false) :
    (eina_file_open_reg cache filename st shared).2 =
      { freshEinaFile st shared with refcount := 1 } ∧
    (eina_file_open_reg cache filename st shared).1 =
      (filename, { freshEinaFile st shared with refcount := 1 }) ::
        alistRemove cache filename ∧
    (eina_file_open_reg cache filename st shared).2 ≠ f := by
  have h2 : eina_file_open_reg cache filename st shared =
      ((filename, { freshEinaFile st shared with refcount := 1 }) ::
         alistRemove cache filename,
       { freshEinaFile st shared with refcount := 1 }) := by
    simp only [eina_file_open_reg, hfind, hstale, Bool.false_eq_true, if_false]
  refine ⟨by rw [h2], by rw [h2], ?_⟩
  rw [h2]
  intro heq
  rw [← heq] at hstale
  simp [eina_file_timestamp_compare, freshEinaFile] at hstale

/-- Witness for `open_stale_eviction`: a single-entry registry whose
handle records size 5, while the fresh stat reports size 7. -/
theorem open_stale_eviction_witness :
    (eina_file_open_reg [("/tmp/f", freshEinaFile ⟨5, 3, 9, 0⟩ false)] "/tmp/f"
        ⟨7, 3, 9, 0⟩ false).2 =
      { freshEinaFile ⟨7, 3, 9, 0⟩ false with refcount := 1 } ∧
    (eina_file_open_reg [("/tmp/f", freshEinaFile ⟨5, 3, 9, 0⟩ false)] "/tmp/f"
        ⟨7, 3, 9, 0⟩ false).2 ≠ freshEinaFile ⟨5, 3, 9, 0⟩ false := by
  have h := open_stale_eviction [("/tmp/f", freshEinaFile ⟨5, 3, 9, 0⟩ false)] "/tmp/f"
    ⟨7, 3, 9, 0⟩ false (freshEinaFile ⟨5, 3, 9, 0⟩ false) (by decide) (by decide)
  exact ⟨h.1, h.2.2⟩

/-- C5: splitting `"this//is///a /more/complex///case///"` on `/`
yields exactly the components `this`, `is`, `a `, `more`, `complex`,
`case`, in that order: runs of separators produce no empty components,
the trailing separators produce no trailing component, and every
non-separator character (including the embedded blank of `"a "`) is
preserved verbatim. -/
theorem split_complex_case :
    splitComponents "this//is///a /more/complex///case///".toList =
      ["this".toList, "is".toList, "a ".toList, "more".toList,
       "complex".toList, "case".toList] := by
  decide

/-- C9: with no populate flag available, `_eina_file_map_populate` on a
mapping of length 5 with small pages reads byte offsets `0` and `5`:
the final read `r ^= map[size]` touches offset `size` itself, one byte
past the mapped range, so it is not true that every offset read is
strictly below the mapped length. -/
theorem populate_reads_past_range :
    populateReadOffsets 5 false = [0, 5] ∧
      ¬ (∀ o ∈ populateReadOffsets 5 false, o < 5) := by
  decide

/-- C4: over the mapped buffer `"a\nb\r\nc\rd"` the line iterator
yields four spans and then exhausts.  The first three spans report
length 1 with text `a`, `b`, `c`, but the fourth span — the final line
`d`, which has no terminator — reports length `8 - 7 - 1 = 0`, so the
text addressed by its reported length is empty rather than `"d"`: the
`- 1` in `it->current.length = eol - it->current.start - 1` wrongly
assumes a trailing terminator is present. -/
theorem map_lines_mixed_eol_run :
    (linesAfter "a\nb\r\nc\rd".toList 1).map lineText = some "a".toList ∧
    (linesAfter "a\nb\r\nc\rd".toList 2).map lineText = some "b".toList ∧
    (linesAfter "a\nb\r\nc\rd".toList 3).map lineText = some "c".toList ∧
    (linesAfter "a\nb\r\nc\rd".toList 4).map
        (fun i => (i.current.start, i.current.stop, i.current.length)) = some (7, 8, 0) ∧
    (linesAfter "a\nb\r\nc\rd".toList 4).map lineText = some [] ∧
    linesAfter "a\nb\r\nc\rd".toList 5 = none := by
  refine ⟨by decide, by decide, by decide, by decide, by decide, by decide⟩



/-! ### C10 helpers -/

theorem getD_set_ne (l : List Char) (i j : Nat) (a d : Char) (h : i ≠ j) :
    (l.set i a).getD j d = l.getD j d := by
  simp [List.getD_eq_getElem?_getD, List.getElem?_set_ne h]

theorem getD_set_self (l : List Char) (i : Nat) (a d : Char) (h : i < l.length) :
    (l.set i a).getD i d = a := by
  simp [List.getD_eq_getElem?_getD, List.getElem?_set_self h]

theorem drop_set_high (l : List Char) (i m : Nat) (a : Char) (h : i < m) :
    (l.set i a).drop m = l.drop m := by
  simp [List.drop_set, h]

theorem nul_notin_drop_of (buf : List Char) (p q : Nat) (hpq : p ≤ q)
    (h : nulChar ∉ buf.drop p) : nulChar ∉ buf.drop q := by
  intro hmem
  apply h
  have : buf.drop q = (buf.drop p).drop (q - p) := by
    rw [List.drop_drop]
    congr 1
    omega
  rw [this] at hmem
  exact List.mem_of_mem_drop hmem

theorem getD_mem (buf : List Char) (i : Nat) (d : Char) (h : i < buf.length) :
    buf.getD i d ∈ buf := by
  rw [List.getD_eq_getElem buf d h]
  exact List.getElem_mem h

/-- A found `strchr` index lies in `[p, length)` and holds `c`. -/
theorem strchrFrom_some_spec (buf : List Char) (c : Char) :
    ∀ fuel p cur, strchrFrom buf c p fuel = some cur →
      p ≤ cur ∧ cur < buf.length ∧ buf.getD cur nulChar = c := by
  intro fuel
  induction fuel with
  | zero => intro p cur h; simp [strchrFrom] at h
  | succ n ih =>
    intro p cur h
    rw [strchrFrom] at h
    by_cases hp : p < buf.length
    · rw [dif_pos hp] at h
      by_cases hc : buf.get ⟨p, hp⟩ = c
      · rw [if_pos hc] at h
        cases h
        refine ⟨Nat.le_refl p, hp, ?_⟩
        rw [List.getD_eq_getElem buf nulChar hp]
        simpa [List.get_eq_getElem] using hc
      · rw [if_neg hc] at h
        obtain ⟨h1, h2, h3⟩ := ih (p + 1) cur h
        exact ⟨by omega, h2, h3⟩
    · rw [dif_neg hp] at h
      cases h

/-- Frame of the in-place split loop: the buffer keeps its length, all
pushed offsets lie in `[p, length)`, positions below `p` are untouched,
and every touched position held the separator and now holds NUL. -/
theorem splitLoop_spec :
    ∀ (fuel : Nat) (buf : List Char) (p : Nat), nulChar ∉ buf.drop p →
      (splitLoop buf p fuel).1.length = buf.length ∧
      (∀ o ∈ (splitLoop buf p fuel).2, p ≤ o ∧ o < buf.length) ∧
      (∀ i, i < p →
        (splitLoop buf p fuel).1.getD i nulChar = buf.getD i nulChar) ∧
      (∀ i, i < buf.length →
        (splitLoop buf p fuel).1.getD i nulChar = buf.getD i nulChar ∨
          (buf.getD i nulChar = pathDelim ∧
           (splitLoop buf p fuel).1.getD i nulChar = nulChar)) := by
  intro fuel
  induction fuel with
  | zero =>
    intro buf p _
    exact ⟨rfl, by simp [splitLoop], fun i _ => rfl, fun i _ => Or.inl rfl⟩
  | succ n ih =>
    intro buf p hnul
    cases hs : strchrFrom buf pathDelim p (buf.length + 1) with
    | none =>
      have heq : splitLoop buf p (n + 1) =
          (buf, if p < buf.length then [p] else []) := by
        rw [splitLoop, hs]
      rw [heq]
      refine ⟨rfl, ?_, fun i _ => rfl, fun i _ => Or.inl rfl⟩
      intro o ho
      by_cases hp : p < buf.length
      · simp [hp] at ho
        subst ho
        exact ⟨Nat.le_refl o, hp⟩
      · simp [hp] at ho
    | some cur =>
      obtain ⟨hpc, hcl, hcc⟩ := strchrFrom_some_spec buf pathDelim _ p cur hs
      by_cases hlt : p < cur
      · have heq : splitLoop buf p (n + 1) =
            ((splitLoop (buf.set cur nulChar) (cur + 1) n).1,
             p :: (splitLoop (buf.set cur nulChar) (cur + 1) n).2) := by
          rw [splitLoop, hs]
          simp only [if_pos hlt]
        rw [heq]
        have hnul' : nulChar ∉ (buf.set cur nulChar).drop (cur + 1) := by
          rw [drop_set_high buf cur (cur + 1) nulChar (Nat.lt_succ_self cur)]
          exact nul_notin_drop_of buf p (cur + 1) (by omega) hnul
        obtain ⟨ih1, ih2, ih3, ih4⟩ := ih (buf.set cur nulChar) (cur + 1) hnul'
        have hlen : (buf.set cur nulChar).length = buf.length := List.length_set buf cur nulChar
        refine ⟨by simpa [hlen] using ih1, ?_, ?_, ?_⟩
        · intro o ho
          rcases List.mem_cons.mp ho with rfl | ho'
          · exact ⟨Nat.le_refl o, by omega⟩
          · obtain ⟨h1, h2⟩ := ih2 o ho'
            exact ⟨by omega, by omega⟩
        · intro i hip
          rw [ih3 i (by omega)]
          exact getD_set_ne buf cur i nulChar nulChar (by omega)
        · intro i hil
          by_cases hic : i = cur
          · subst hic
            refine Or.inr ⟨hcc, ?_⟩
            rw [ih3 i (by omega)]
            exact getD_set_self buf i nulChar nulChar hil
          · rcases ih4 i (by simpa [hlen] using hil) with h | ⟨h1, h2⟩
            · rw [getD_set_ne buf cur i nulChar nulChar (fun he => hic he.symm)] at h
              exact Or.inl h
            · rw [getD_set_ne buf cur i nulChar nulChar (fun he => hic he.symm)] at h1
              exact Or.inr ⟨h1, h2⟩
      · have heq : splitLoop buf p (n + 1) = splitLoop buf (cur + 1) n := by
          rw [splitLoop, hs]
          simp only [if_neg hlt]
        rw [heq]
        have hnul' : nulChar ∉ buf.drop (cur + 1) :=
          nul_notin_drop_of buf p (cur + 1) (by omega) hnul
        obtain ⟨ih1, ih2, ih3, ih4⟩ := ih buf (cur + 1) hnul'
        refine ⟨ih1, ?_, ?_, ih4⟩
        · intro o ho
          obtain ⟨h1, h2⟩ := ih2 o ho
          exact ⟨by omega, h2⟩
        · intro i hip
          exact ih3 i (by omega)

/-- Where `takeWhile` stops early, the predicate fails. -/
theorem takeWhile_stop (q : Char → Bool) :
    ∀ (l : List Char) (d : Char), (l.takeWhile q).length < l.length →
      q (l.getD (l.takeWhile q).length d) = false := by
  intro l
  induction l with
  | nil => intro d h; simp at h
  | cons a t ih =>
    intro d h
    by_cases hq : q a
    · rw [List.takeWhile_cons_of_pos hq] at h ⊢
      simpa using ih d (by simpa using h)
    · rw [List.takeWhile_cons_of_neg hq]
      simpa using hq

/-- C10: `eina_file_split` consumes its argument in place: the buffer
keeps its length, every returned component is an offset into the
caller's buffer (no copy), the only bytes that change are separators
overwritten with NUL, and whenever a returned component stops before
the end of the buffer the byte just past it was the separator that
terminated the component and is now the NUL terminator the caller
reads. -/
theorem split_in_place (path : List Char) (hnul : nulChar ∉ path) :
    (eina_file_split path).1.length = path.length ∧
    (∀ o ∈ (eina_file_split path).2, o < path.length) ∧
    (∀ i, i < path.length →
      (eina_file_split path).1.getD i nulChar = path.getD i nulChar ∨
        (path.getD i nulChar = pathDelim ∧
         (eina_file_split path).1.getD i nulChar = nulChar)) ∧
    (∀ o ∈ (eina_file_split path).2,
      o + (readCString (eina_file_split path).1 o).length < path.length →
        path.getD (o + (readCString (eina_file_split path).1 o).length) nulChar
            = pathDelim ∧
          (eina_file_split path).1.getD
            (o + (readCString (eina_file_split path).1 o).length) nulChar
            = nulChar) := by
  have hES : eina_file_split path = splitLoop path 0 (path.length + 1) := rfl
  obtain ⟨h1, h2, _, h4⟩ := splitLoop_spec (path.length + 1) path 0 (by simpa using hnul)
  rw [← hES] at h1 h2 h4
  refine ⟨h1, fun o ho => (h2 o ho).2, h4, ?_⟩
  intro o ho hlt
  have hLdef : (readCString (eina_file_split path).1 o).length =
      (((eina_file_split path).1.drop o).takeWhile
        (fun c => decide (c ≠ nulChar))).length := rfl
  have hlen2 : (((eina_file_split path).1.drop o).takeWhile
      (fun c => decide (c ≠ nulChar))).length <
      ((eina_file_split path).1.drop o).length := by
    rw [List.length_drop, ← hLdef, h1]
    omega
  have hstop := takeWhile_stop (fun c => decide (c ≠ nulChar))
    ((eina_file_split path).1.drop o) nulChar hlen2
  rw [← hLdef] at hstop
  have hget : ((eina_file_split path).1.drop o).getD
      (readCString (eina_file_split path).1 o).length nulChar =
      (eina_file_split path).1.getD
        (o + (readCString (eina_file_split path).1 o).length) nulChar := by
    simp [List.getD_eq_getElem?_getD, List.getElem?_drop]
  rw [hget] at hstop
  have hnulat : (eina_file_split path).1.getD
      (o + (readCString (eina_file_split path).1 o).length) nulChar = nulChar :=
    not_ne_iff.mp (of_decide_eq_false hstop)
  rcases h4 (o + (readCString (eina_file_split path).1 o).length) (by omega)
    with heq | ⟨hsep, _⟩
  · exfalso
    apply hnul
    rw [heq] at hnulat
    rw [← hnulat]
    exact getD_mem path _ nulChar (by omega)
  · exact ⟨hsep, hnulat⟩

/-- Witness for `split_in_place`: the test input buffer. -/
theorem split_in_place_witness :
    ("this//is///a /more/complex///case///".toList.length = 36) ∧
    (∀ o ∈ (eina_file_split "this//is///a /more/complex///case///".toList).2,
      o < "this//is///a /more/complex///case///".toList.length) := by
  have h := split_in_place "this//is///a /more/complex///case///".toList (by decide)
  exact ⟨by decide, h.2.1⟩

/-! ## Path sanitization (`_eina_file_escape`, `eina_file_path_sanitize`)

The C mutates the `strdup`ed buffer with `memmove`; the model works on
the string value.  `len` is the C `len` variable: for the
cwd-prefixed input of `eina_file_path_sanitize` it is one more than the
true string length (the C adds `strlen(cwd) + 2` for a separator *and*
a terminator that is already counted), and it only matters in the
trailing-`/..` truncation.  The loop runs at most `3 * |s|` steps
(every iteration removes a character or advances the scan position), so
fuel `3 * |s| + 1` never runs out. -/

/-- `strrchr` on the string truncated at index `bound`: the last index
below `bound` holding `c`. -/
def strrchrBefore (s : List Char) (c : Char) : Nat → Option Nat
  | 0 => none
  | b + 1 => if s.getD b nulChar = c then some b else strrchrBefore s c b

/-- The scan loop of `_eina_file_escape`: `p` is the scan position,
`q` the last separator examined.  A double separator drops the
character at `p` (`memmove` by one); `/../` splices `[q, p+3)` out and
rescans from `q`, recomputing `q` with `strrchr`; a trailing `/..`
truncates at `len - (p + 2 - q)` — after which the C scan immediately
ends, since the stale bytes past the new terminator are `".."` followed
by the old terminator, containing no separator. -/
def escapeLoop (s : List Char) (len p q : Nat) : Nat → List Char
  | 0 => s
  | fuel + 1 =>
    match strchrFrom s pathDelim p (s.length + 1) with
    | none => s
    | some p1 =>
      if s.getD (p1 + 1) nulChar = pathDelim then
        escapeLoop (s.eraseIdx p1) (len - 1) p1 q fuel
      else if s.getD (p1 + 1) nulChar = '.' ∧ s.getD (p1 + 2) nulChar = '.' then
        if s.getD (p1 + 3) nulChar = pathDelim then
          escapeLoop (s.take q ++ s.drop (p1 + 3)) (len - (p1 + 3 - q)) q
            ((strrchrBefore (s.take q ++ s.drop (p1 + 3)) pathDelim q).getD 0) fuel
        else if s.getD (p1 + 3) nulChar = nulChar then
          s.take (len - (p1 + 2 - q))
        else
          escapeLoop s len (p1 + 1) p1 fuel
      else
        escapeLoop s len (p1 + 1) p1 fuel

/-- `_eina_file_escape(path, &len)` as a value transform. -/
def eina_file_escape (path : List Char) (len : Nat) : List Char :=
  escapeLoop path len 0 0 (3 * path.length + 1)

/-- `eina_file_path_sanitize(path)`, with the working directory
(`getcwd`) passed explicitly.  A `NULL` path fails; a relative path is
prefixed with `cwd ++ "/"` and the `len` handed to the escape pass is
`strlen(path) + strlen(cwd) + 2`, exactly as in the C. -/
def eina_file_path_sanitize (cwd : List Char) (path : Option (List Char)) :
    Option (List Char) :=
  match path with
  | none => none
  | some p =>
    if p.getD 0 nulChar ≠ pathDelim then
      some (eina_file_escape (cwd ++ pathDelim :: p) (p.length + cwd.length + 2))
    else
      some (eina_file_escape p p.length)


/-! ### Character access helpers -/

theorem getD_lt_length (s : List Char) (i : Nat) (d : Char) (h : s.getD i d ≠ d) :
    i < s.length := by
  by_contra hge
  rw [List.getD_eq_getElem?_getD, List.getElem?_eq_none (by omega)] at h
  simp at h

theorem getD_beyond (s : List Char) (i : Nat) (d : Char) (h : s.length ≤ i) :
    s.getD i d = d := by
  rw [List.getD_eq_getElem?_getD, List.getElem?_eq_none h]
  rfl

theorem getD_ne_nul (s : List Char) (hnul : nulChar ∉ s) (i : Nat)
    (h : i < s.length) : s.getD i nulChar ≠ nulChar := by
  intro he
  exact hnul (he ▸ getD_mem s i nulChar h)

theorem getD_splice_lt (s : List Char) (a b i : Nat) (d : Char)
    (ha : a ≤ s.length) (h : i < a) :
    (s.take a ++ s.drop b).getD i d = s.getD i d := by
  rw [List.getD_eq_getElem?_getD, List.getD_eq_getElem?_getD,
    List.getElem?_append_left (by simp [List.length_take]; omega),
    List.getElem?_take, if_pos h]

theorem getD_splice_ge (s : List Char) (a b i : Nat) (d : Char)
    (ha : a ≤ s.length) (h : a ≤ i) :
    (s.take a ++ s.drop b).getD i d = s.getD (b + (i - a)) d := by
  rw [List.getD_eq_getElem?_getD, List.getD_eq_getElem?_getD,
    List.getElem?_append_right (by simp [List.length_take]; omega),
    List.getElem?_drop]
  congr 2
  simp [List.length_take]
  omega

theorem length_splice (s : List Char) (a b : Nat) (ha : a ≤ s.length) :
    (s.take a ++ s.drop b).length = a + (s.length - b) := by
  simp [List.length_append, List.length_take, List.length_drop]
  omega

theorem getD_take_lt (s : List Char) (n i : Nat) (d : Char) (h : i < n) :
    (s.take n).getD i d = s.getD i d := by
  rw [List.getD_eq_getElem?_getD, List.getD_eq_getElem?_getD,
    List.getElem?_take, if_pos h]

theorem getD_take_ge (s : List Char) (n i : Nat) (d : Char) (h : n ≤ i) :
    (s.take n).getD i d = d := by
  rw [List.getD_eq_getElem?_getD, List.getElem?_take, if_neg (by omega)]
  rfl

theorem getD_erase_lt (s : List Char) (k i : Nat) (d : Char) (h : i < k) :
    (s.eraseIdx k).getD i d = s.getD i d := by
  rcases Nat.lt_or_ge k s.length with hk | hk
  · rw [List.eraseIdx_eq_take_drop_succ]
    exact getD_splice_lt s k (k + 1) i d (by omega) h
  · rw [List.eraseIdx_eq_self.mpr (by omega)]

theorem getD_erase_ge (s : List Char) (k i : Nat) (d : Char)
    (hk : k < s.length) (h : k ≤ i) :
    (s.eraseIdx k).getD i d = s.getD (i + 1) d := by
  rw [List.eraseIdx_eq_take_drop_succ,
    getD_splice_ge s k (k + 1) i d (by omega) h]
  congr 1
  omega

theorem nul_notin_splice (s : List Char) (a b : Nat) (h : nulChar ∉ s) :
    nulChar ∉ s.take a ++ s.drop b := by
  intro hm
  rcases List.mem_append.mp hm with hm | hm
  · exact h (List.mem_of_mem_take hm)
  · exact h (List.mem_of_mem_drop hm)

theorem nul_notin_take (s : List Char) (a : Nat) (h : nulChar ∉ s) :
    nulChar ∉ s.take a := fun hm => h (List.mem_of_mem_take hm)

theorem nul_notin_erase (s : List Char) (k : Nat) (h : nulChar ∉ s) :
    nulChar ∉ s.eraseIdx k := by
  rw [List.eraseIdx_eq_take_drop_succ]
  exact nul_notin_splice s k (k + 1) h

/-! ### Scan lemmas -/

theorem strchrFrom_none_spec (buf : List Char) (c : Char) :
    ∀ fuel p, buf.length - p < fuel → strchrFrom buf c p fuel = none →
      ∀ j, p ≤ j → j < buf.length → buf.getD j nulChar ≠ c := by
  intro fuel
  induction fuel with
  | zero => intro p h; exact absurd h (Nat.not_lt_zero _)
  | succ n ih =>
    intro p hf hnone j hpj hjl
    rw [strchrFrom] at hnone
    by_cases hp : p < buf.length
    · rw [dif_pos hp] at hnone
      by_cases hc : buf.get ⟨p, hp⟩ = c
      · rw [if_pos hc] at hnone; cases hnone
      · rw [if_neg hc] at hnone
        rcases Nat.eq_or_lt_of_le hpj with rfl | hlt
        · rw [List.getD_eq_getElem buf nulChar hjl]
          simpa [List.get_eq_getElem] using hc
        · exact ih (p + 1) (by omega) hnone j (by omega) hjl
    · omega

theorem strchrFrom_some_min (buf : List Char) (c : Char) :
    ∀ fuel p cur, strchrFrom buf c p fuel = some cur →
      ∀ j, p ≤ j → j < cur → buf.getD j nulChar ≠ c := by
  intro fuel
  induction fuel with
  | zero => intro p cur h; simp [strchrFrom] at h
  | succ n ih =>
    intro p cur h j hpj hjc
    rw [strchrFrom] at h
    by_cases hp : p < buf.length
    · rw [dif_pos hp] at h
      by_cases hc : buf.get ⟨p, hp⟩ = c
      · rw [if_pos hc] at h
        cases h
        omega
      · rw [if_neg hc] at h
        rcases Nat.eq_or_lt_of_le hpj with rfl | hlt
        · rw [List.getD_eq_getElem buf nulChar hp]
          simpa [List.get_eq_getElem] using hc
        · exact ih (p + 1) cur h j (by omega) hjc
    · rw [dif_neg hp] at h; cases h

theorem strrchrBefore_some_spec (s : List Char) (c : Char) :
    ∀ b r, strrchrBefore s c b = some r → r < b ∧ s.getD r nulChar = c := by
  intro b
  induction b with
  | zero => intro r h; simp [strrchrBefore] at h
  | succ n ih =>
    intro r h
    rw [strrchrBefore] at h
    by_cases hc : s.getD n nulChar = c
    · rw [if_pos hc] at h; cases h; exact ⟨Nat.lt_succ_self _, hc⟩
    · rw [if_neg hc] at h
      obtain ⟨h1, h2⟩ := ih r h
      exact ⟨by omega, h2⟩

/-! ### The escape patterns -/

/-- Position `i` starts a pattern that `_eina_file_escape` rewrites: a
double separator, an interior `/../`, or a trailing `/..`. -/
def escPatAt (s : List Char) (i : Nat) : Prop :=
  s.getD i nulChar = pathDelim ∧
    (s.getD (i + 1) nulChar = pathDelim ∨
      (s.getD (i + 1) nulChar = '.' ∧ s.getD (i + 2) nulChar = '.' ∧
        (s.getD (i + 3) nulChar = pathDelim ∨ i + 3 = s.length)))

theorem delim_ne_nul : pathDelim ≠ nulChar := by decide
theorem dot_ne_nul : ('.' : Char) ≠ nulChar := by decide
theorem delim_ne_dot : pathDelim ≠ '.' := by decide

/-- Pattern-free strings after the scan position: the else branches of
the loop preserve cleanliness below the advanced position. -/
theorem escClean_step_else (s : List Char) (p p1 : Nat)
    (hclean : ∀ j, j < p → ¬ escPatAt s j)
    (hmin : ∀ j, p ≤ j → j < p1 → s.getD j nulChar ≠ pathDelim)
    (hnotpat : ¬ escPatAt s p1) :
    ∀ j, j < p1 + 1 → ¬ escPatAt s j := by
  intro j hj
  rcases Nat.lt_or_ge j p with hjp | hjp
  · exact hclean j hjp
  · rcases Nat.lt_or_ge j p1 with hjq | hjq
    · intro hpat
      exact hmin j hjp hjq hpat.1
    · have hje : j = p1 := by omega
      subst hje
      exact hnotpat

/-- Removing the first of a double separator creates no pattern below
the scan position. -/
theorem escClean_step_erase (s : List Char) (p p1 : Nat)
    (hclean : ∀ j, j < p → ¬ escPatAt s j)
    (hmin : ∀ j, p ≤ j → j < p1 → s.getD j nulChar ≠ pathDelim)
    (hsep : s.getD p1 nulChar = pathDelim)
    (hsep2 : s.getD (p1 + 1) nulChar = pathDelim) :
    ∀ j, j < p1 → ¬ escPatAt (s.eraseIdx p1) j := by
  have hp11 : p1 + 1 < s.length :=
    getD_lt_length s (p1 + 1) nulChar (by rw [hsep2]; exact delim_ne_nul)
  have hE : ∀ i, i < p1 → (s.eraseIdx p1).getD i nulChar = s.getD i nulChar :=
    fun i hi => getD_erase_lt s p1 i nulChar hi
  have hG : (s.eraseIdx p1).getD p1 nulChar = s.getD (p1 + 1) nulChar :=
    getD_erase_ge s p1 p1 nulChar (by omega) (Nat.le_refl p1)
  have hlen : (s.eraseIdx p1).length = s.length - 1 := by
    rw [List.length_eraseIdx, if_pos (by omega)]
  intro j hj hpat
  obtain ⟨e0, ecase⟩ := hpat
  rw [hE j hj] at e0
  have hjp : j < p := by
    by_contra hge
    exact hmin j (by omega) hj e0
  rcases ecase with e1 | ⟨e1, e2, e3⟩
  · have hs1 : s.getD (j + 1) nulChar = pathDelim := by
      rcases Nat.lt_or_ge (j + 1) p1 with hlt | hge
      · rw [← hE (j + 1) hlt]; exact e1
      · have hje : j + 1 = p1 := by omega
        rw [hje]; exact hsep
    exact hclean j hjp ⟨e0, Or.inl hs1⟩
  · rcases Nat.lt_or_ge (j + 1) p1 with h1lt | h1ge
    · have hs1 : s.getD (j + 1) nulChar = '.' := by rw [← hE (j + 1) h1lt]; exact e1
      rcases Nat.lt_or_ge (j + 2) p1 with h2lt | h2ge
      · have hs2 : s.getD (j + 2) nulChar = '.' := by rw [← hE (j + 2) h2lt]; exact e2
        rcases Nat.lt_or_ge (j + 3) p1 with h3lt | h3ge
        · rcases e3 with e3 | e3
          · have hs3 : s.getD (j + 3) nulChar = pathDelim := by
              rw [← hE (j + 3) h3lt]; exact e3
            exact hclean j hjp ⟨e0, Or.inr ⟨hs1, hs2, Or.inl hs3⟩⟩
          · rw [hlen] at e3; omega
        · have h3e : j + 3 = p1 := by omega
          exact hclean j hjp ⟨e0, Or.inr ⟨hs1, hs2, Or.inl (by rw [h3e]; exact hsep)⟩⟩
      · have h2e : j + 2 = p1 := by omega
        rw [h2e, hG, hsep2] at e2
        exact absurd e2 (by decide)
    · have h1e : j + 1 = p1 := by omega
      rw [h1e, hG, hsep2] at e1
      exact absurd e1 (by decide)

/-- Splicing `[q, p1+3)` out for a `/../` creates no pattern below the
restart position `q`. -/
theorem escClean_step_splice (s : List Char) (p p1 q : Nat)
    (hclean : ∀ j, j < p → ¬ escPatAt s j)
    (hq : s.getD q nulChar = pathDelim)
    (hqp : q ≤ p) (hp : p ≤ p1)
    (hsep3 : s.getD (p1 + 3) nulChar = pathDelim) :
    ∀ j, j < q → ¬ escPatAt (s.take q ++ s.drop (p1 + 3)) j := by
  have hp13 : p1 + 3 < s.length :=
    getD_lt_length s (p1 + 3) nulChar (by rw [hsep3]; exact delim_ne_nul)
  have hqs : q ≤ s.length := by omega
  have hE : ∀ i, i < q →
      (s.take q ++ s.drop (p1 + 3)).getD i nulChar = s.getD i nulChar :=
    fun i hi => getD_splice_lt s q (p1 + 3) i nulChar hqs hi
  have hGq : (s.take q ++ s.drop (p1 + 3)).getD q nulChar = pathDelim := by
    rw [getD_splice_ge s q (p1 + 3) q nulChar hqs (Nat.le_refl q)]
    simpa using hsep3
  have hlen : q + 1 ≤ (s.take q ++ s.drop (p1 + 3)).length := by
    rw [length_splice s q (p1 + 3) hqs]
    omega
  intro j hj hpat
  obtain ⟨e0, ecase⟩ := hpat
  rw [hE j hj] at e0
  have hjp : j < p := by omega
  rcases ecase with e1 | ⟨e1, e2, e3⟩
  · have hs1 : s.getD (j + 1) nulChar = pathDelim := by
      rcases Nat.lt_or_ge (j + 1) q with hlt | hge
      · rw [← hE (j + 1) hlt]; exact e1
      · have hje : j + 1 = q := by omega
        rw [hje]; exact hq
    exact hclean j hjp ⟨e0, Or.inl hs1⟩
  · rcases Nat.lt_or_ge (j + 1) q with h1lt | h1ge
    · have hs1 : s.getD (j + 1) nulChar = '.' := by rw [← hE (j + 1) h1lt]; exact e1
      rcases Nat.lt_or_ge (j + 2) q with h2lt | h2ge
      · have hs2 : s.getD (j + 2) nulChar = '.' := by rw [← hE (j + 2) h2lt]; exact e2
        rcases Nat.lt_or_ge (j + 3) q with h3lt | h3ge
        · rcases e3 with e3 | e3
          · have hs3 : s.getD (j + 3) nulChar = pathDelim := by
              rw [← hE (j + 3) h3lt]; exact e3
            exact hclean j hjp ⟨e0, Or.inr ⟨hs1, hs2, Or.inl hs3⟩⟩
          · omega
        · have h3e : j + 3 = q := by omega
          exact hclean j hjp ⟨e0, Or.inr ⟨hs1, hs2, Or.inl (by rw [h3e]; exact hq)⟩⟩
      · have h2e : j + 2 = q := by omega
        rw [h2e, hGq] at e2
        exact absurd e2 (by decide)
    · have h1e : j + 1 = q := by omega
      rw [h1e, hGq] at e1
      exact absurd e1 (by decide)

/-- The trailing-`/..` truncation leaves a fully pattern-free string:
the kept prefix runs one past `q` — plus one extra character when the
caller-supplied `len` exceeded the true length by one. -/
theorem escClean_trunc (s : List Char) (p p1 q m : Nat)
    (hclean : ∀ j, j < p → ¬ escPatAt s j)
    (hmin : ∀ j, p ≤ j → j < p1 → s.getD j nulChar ≠ pathDelim)
    (hq : s.getD q nulChar = pathDelim)
    (hqp : q ≤ p) (hp : p ≤ p1)
    (hdot1 : s.getD (p1 + 1) nulChar = '.')
    (hm : m = q + 1 ∨ m = q + 2)
    (hms : m < s.length) :
    ∀ i, ¬ escPatAt (s.take m) i := by
  have hmsle : m ≤ s.length := by omega
  have htlen : (s.take m).length = m := by
    rw [List.length_take]; omega
  have hE : ∀ i, i < m → (s.take m).getD i nulChar = s.getD i nulChar :=
    fun i hi => getD_take_lt s m i nulChar hi
  have hB : ∀ i, m ≤ i → (s.take m).getD i nulChar = nulChar := by
    intro i hi
    exact getD_beyond _ i nulChar (by omega)
  -- q = p forces the found separator to be at p itself
  have hqp1 : q = p → p1 = p := by
    intro hqe
    by_contra hne
    exact hmin p (Nat.le_refl p) (by omega) (by rw [← hqe]; exact hq)
  intro i hpat
  obtain ⟨e0, ecase⟩ := hpat
  rcases Nat.lt_or_ge i m with him | him
  swap
  · rw [hB i him] at e0
    exact delim_ne_nul e0.symm
  rw [hE i him] at e0
  rcases ecase with e1 | ⟨e1, e2, e3⟩
  · -- double separator inside the truncation
    have h1m : i + 1 < m := by
      by_contra hge
      rw [hB (i + 1) (by omega)] at e1
      exact delim_ne_nul e1.symm
    rw [hE (i + 1) h1m] at e1
    rcases hm with hm1 | hm2
    · -- m = q + 1 : the pair sits at or below q - 1
      exact hclean i (by omega) ⟨e0, Or.inl e1⟩
    · -- m = q + 2 : the pair may end exactly at q + 1
      rcases Nat.lt_or_ge i q with hiq | hiq
      · exact hclean i (by omega) ⟨e0, Or.inl e1⟩
      · have hie : i = q := by omega
        subst hie
        rcases Nat.lt_or_ge i p with hip | hip
        · exact hclean i hip ⟨e0, Or.inl e1⟩
        · have hqe : i = p := by omega
          have hp1e : p1 = p := hqp1 hqe
          rw [hqe, ← hp1e] at e1
          rw [hdot1] at e1
          exact absurd e1 (by decide)
  · have h1m : i + 1 < m := by
      by_contra hge
      rw [hB (i + 1) (by omega)] at e1
      exact dot_ne_nul e1.symm
    have h2m : i + 2 < m := by
      by_contra hge
      rw [hB (i + 2) (by omega)] at e2
      exact dot_ne_nul e2.symm
    rw [hE (i + 1) h1m] at e1
    rw [hE (i + 2) h2m] at e2
    rcases e3 with e3 | e3
    · have h3m : i + 3 < m := by
        by_contra hge
        rw [hB (i + 3) (by omega)] at e3
        exact delim_ne_nul e3.symm
      rw [hE (i + 3) h3m] at e3
      exact hclean i (by omega) ⟨e0, Or.inr ⟨e1, e2, Or.inl e3⟩⟩
    · -- i + 3 = m : the ".." would have to straddle the new end
      rw [htlen] at e3
      rcases hm with hm1 | hm2
      · -- m = q + 1 : i + 2 = q, but s[q] = '/'
        have h2e : i + 2 = q := by omega
        rw [h2e, hq] at e2
        exact absurd e2 (by decide)
      · -- m = q + 2 : i + 1 = q, again s[q] = '/'
        have h1e : i + 1 = q := by omega
        rw [h1e, hq] at e1
        exact absurd e1 (by decide)


/-! ### The escape pass produces pattern-free absolute strings -/

theorem escapeLoop_spec :
    ∀ (fuel : Nat) (s : List Char) (len p q : Nat),
      3 * s.length - p < fuel →
      nulChar ∉ s →
      s.getD 0 nulChar = pathDelim →
      (len = s.length ∨ len = s.length + 1) →
      s.getD q nulChar = pathDelim →
      q ≤ p →
      (∀ j, j < p → ¬ escPatAt s j) →
      nulChar ∉ escapeLoop s len p q fuel ∧
      (escapeLoop s len p q fuel).getD 0 nulChar = pathDelim ∧
      ∀ i, ¬ escPatAt (escapeLoop s len p q fuel) i := by
  intro fuel
  induction fuel with
  | zero => intro s len p q hf; exact absurd hf (Nat.not_lt_zero _)
  | succ n ih =>
    intro s len p q hf hnul habs hlen hq hqp hclean
    cases hs : strchrFrom s pathDelim p (s.length + 1) with
    | none =>
      have heq : escapeLoop s len p q (n + 1) = s := by rw [escapeLoop, hs]
      rw [heq]
      refine ⟨hnul, habs, ?_⟩
      intro i hpat
      rcases Nat.lt_or_ge i p with hip | hip
      · exact hclean i hip hpat
      · rcases Nat.lt_or_ge i s.length with hil | hil
        · exact strchrFrom_none_spec s pathDelim (s.length + 1) p (by omega) hs
            i hip hil hpat.1
        · obtain ⟨h0, _⟩ := hpat
          rw [getD_beyond s i nulChar hil] at h0
          exact delim_ne_nul h0.symm
    | some p1 =>
      obtain ⟨hpp1, hp1l, hp1c⟩ := strchrFrom_some_spec s pathDelim _ p p1 hs
      have hmin : ∀ j, p ≤ j → j < p1 → s.getD j nulChar ≠ pathDelim :=
        strchrFrom_some_min s pathDelim _ p p1 hs
      by_cases hb1 : s.getD (p1 + 1) nulChar = pathDelim
      · -- double separator: drop the character at p1
        have heq : escapeLoop s len p q (n + 1) =
            escapeLoop (s.eraseIdx p1) (len - 1) p1 q n := by
          rw [escapeLoop, hs]
          simp only [hb1, if_true]
        rw [heq]
        have hp11 : p1 + 1 < s.length :=
          getD_lt_length s (p1 + 1) nulChar (by rw [hb1]; exact delim_ne_nul)
        have hlen1 : (s.eraseIdx p1).length = s.length - 1 := by
          rw [List.length_eraseIdx, if_pos (by omega)]
        refine ih (s.eraseIdx p1) (len - 1) p1 q ?_ ?_ ?_ ?_ ?_ ?_ ?_
        · rw [hlen1]; omega
        · exact nul_notin_erase s p1 hnul
        · rcases Nat.eq_zero_or_pos p1 with h0 | h0
          · subst h0
            rw [getD_erase_ge s 0 0 nulChar (by omega) (Nat.le_refl 0)]
            exact hb1
          · rw [getD_erase_lt s p1 0 nulChar h0]
            exact habs
        · rw [hlen1]; rcases hlen with h | h <;> omega
        · rcases Nat.lt_or_ge q p1 with hqlt | hqge
          · rw [getD_erase_lt s p1 q nulChar hqlt]; exact hq
          · have hqe : q = p1 := by omega
            subst hqe
            rw [getD_erase_ge s q q nulChar (by omega) (Nat.le_refl q)]
            exact hb1
        · omega
        · exact escClean_step_erase s p p1 hclean hmin hp1c hb1
      by_cases hb2 : s.getD (p1 + 1) nulChar = '.' ∧ s.getD (p1 + 2) nulChar = '.'
      · by_cases hb3 : s.getD (p1 + 3) nulChar = pathDelim
        · -- interior '/../': splice [q, p1+3) out and rescan from q
          have heq : escapeLoop s len p q (n + 1) =
              escapeLoop (s.take q ++ s.drop (p1 + 3)) (len - (p1 + 3 - q)) q
                ((strrchrBefore (s.take q ++ s.drop (p1 + 3)) pathDelim q).getD 0)
                n := by
            rw [escapeLoop, hs]
            simp only [hb1, hb2, hb3, if_false, if_true, and_self,
              if_neg (show ¬('.' : Char) = pathDelim by decide),
              if_neg (show ¬nulChar = pathDelim by decide)]
          rw [heq]
          have hp13 : p1 + 3 < s.length :=
            getD_lt_length s (p1 + 3) nulChar (by rw [hb3]; exact delim_ne_nul)
          have hqs : q ≤ s.length := by omega
          have hlen2 : (s.take q ++ s.drop (p1 + 3)).length =
              q + (s.length - (p1 + 3)) := length_splice s q (p1 + 3) hqs
          have habs2 : (s.take q ++ s.drop (p1 + 3)).getD 0 nulChar = pathDelim := by
            rcases Nat.eq_zero_or_pos q with h0 | h0
            · subst h0
              rw [getD_splice_ge s 0 (p1 + 3) 0 nulChar (by omega) (Nat.le_refl 0)]
              simpa using hb3
            · rw [getD_splice_lt s q (p1 + 3) 0 nulChar hqs h0]
              exact habs
          refine ih _ _ _ _ ?_ ?_ habs2 ?_ ?_ ?_ ?_
          · rw [hlen2]; omega
          · exact nul_notin_splice s q (p1 + 3) hnul
          · rw [hlen2]; rcases hlen with h | h <;> [left; right] <;> omega
          · cases hr : strrchrBefore (s.take q ++ s.drop (p1 + 3)) pathDelim q with
            | none => simpa using habs2
            | some r =>
              obtain ⟨hr1, hr2⟩ :=
                strrchrBefore_some_spec (s.take q ++ s.drop (p1 + 3)) pathDelim q r hr
              simpa using hr2
          · cases hr : strrchrBefore (s.take q ++ s.drop (p1 + 3)) pathDelim q with
            | none => simp
            | some r =>
              obtain ⟨hr1, _⟩ :=
                strrchrBefore_some_spec (s.take q ++ s.drop (p1 + 3)) pathDelim q r hr
              simpa using Nat.le_of_lt hr1
          · exact escClean_step_splice s p p1 q hclean hq hqp hpp1 hb3
        by_cases hb4 : s.getD (p1 + 3) nulChar = nulChar
        · -- trailing '/..': truncate and stop
          have heq : escapeLoop s len p q (n + 1) = s.take (len - (p1 + 2 - q)) := by
            rw [escapeLoop, hs]
            simp only [hb1, hb2, hb3, hb4, if_false, if_true, and_self,
              if_neg (show ¬('.' : Char) = pathDelim by decide),
              if_neg (show ¬nulChar = pathDelim by decide)]
          rw [heq]
          have hp12 : p1 + 2 < s.length :=
            getD_lt_length s (p1 + 2) nulChar (by rw [hb2.2]; exact dot_ne_nul)
          have hp13 : p1 + 3 = s.length := by
            rcases Nat.lt_or_ge (p1 + 3) s.length with hlt | hge
            · exact absurd hb4 (getD_ne_nul s hnul (p1 + 3) hlt)
            · omega
          have hm : len - (p1 + 2 - q) = q + 1 ∨ len - (p1 + 2 - q) = q + 2 := by
            rcases hlen with h | h <;> [left; right] <;> omega
          have hms : len - (p1 + 2 - q) < s.length := by
            rcases hlen with h | h <;> omega
          refine ⟨nul_notin_take s _ hnul, ?_, ?_⟩
          · rw [getD_take_lt s _ 0 nulChar (by omega)]
            exact habs
          · exact escClean_trunc s p p1 q _ hclean hmin hq hqp hpp1 hb2.1 hm hms
        · -- "..X": a regular segment, keep scanning
          have heq : escapeLoop s len p q (n + 1) = escapeLoop s len (p1 + 1) p1 n := by
            rw [escapeLoop, hs]
            simp only [hb1, hb2, hb3, hb4, if_false, if_true, and_self,
              if_neg (show ¬('.' : Char) = pathDelim by decide),
              if_neg (show ¬nulChar = pathDelim by decide)]
          rw [heq]
          refine ih s len (p1 + 1) p1 (by omega) hnul habs hlen hp1c (by omega) ?_
          refine escClean_step_else s p p1 hclean hmin ?_
          intro hpat
          rcases hpat.2 with h | ⟨h1, h2, h3⟩
          · exact hb1 h
          · rcases h3 with h3 | h3
            · exact hb3 h3
            · exact hb4 (by rw [h3]; exact getD_beyond s s.length nulChar (Nat.le_refl _))
      · -- not a separator, not "..": a regular segment
        have heq : escapeLoop s len p q (n + 1) = escapeLoop s len (p1 + 1) p1 n := by
          rw [escapeLoop, hs]
          simp only [hb1, hb2, if_false,
              if_neg (show ¬('.' : Char) = pathDelim by decide),
              if_neg (show ¬nulChar = pathDelim by decide)]
        rw [heq]
        refine ih s len (p1 + 1) p1 (by omega) hnul habs hlen hp1c (by omega) ?_
        refine escClean_step_else s p p1 hclean hmin ?_
        intro hpat
        rcases hpat.2 with h | ⟨h1, h2, _⟩
        · exact hb1 h
        · exact hb2 ⟨h1, h2⟩

/-- Pattern-free strings are fixed points of the escape loop. -/
theorem escapeLoop_fix :
    ∀ (fuel : Nat) (s : List Char) (len p q : Nat),
      nulChar ∉ s →
      (∀ i, ¬ escPatAt s i) →
      escapeLoop s len p q fuel = s := by
  intro fuel
  induction fuel with
  | zero => intro s len p q _ _; rfl
  | succ n ih =>
    intro s len p q hnul hclean
    cases hs : strchrFrom s pathDelim p (s.length + 1) with
    | none => rw [escapeLoop, hs]
    | some p1 =>
      obtain ⟨hpp1, hp1l, hp1c⟩ := strchrFrom_some_spec s pathDelim _ p p1 hs
      have hb1 : s.getD (p1 + 1) nulChar ≠ pathDelim := by
        intro h
        exact hclean p1 ⟨hp1c, Or.inl h⟩
      by_cases hb2 : s.getD (p1 + 1) nulChar = '.' ∧ s.getD (p1 + 2) nulChar = '.'
      · have hb3 : s.getD (p1 + 3) nulChar ≠ pathDelim := by
          intro h
          exact hclean p1 ⟨hp1c, Or.inr ⟨hb2.1, hb2.2, Or.inl h⟩⟩
        have hb4 : s.getD (p1 + 3) nulChar ≠ nulChar := by
          intro h
          have hp12 : p1 + 2 < s.length :=
            getD_lt_length s (p1 + 2) nulChar (by rw [hb2.2]; exact dot_ne_nul)
          have hp13 : p1 + 3 = s.length := by
            rcases Nat.lt_or_ge (p1 + 3) s.length with hlt | hge
            · exact absurd h (getD_ne_nul s hnul (p1 + 3) hlt)
            · omega
          exact hclean p1 ⟨hp1c, Or.inr ⟨hb2.1, hb2.2, Or.inr hp13⟩⟩
        have heq : escapeLoop s len p q (n + 1) = escapeLoop s len (p1 + 1) p1 n := by
          rw [escapeLoop, hs]
          simp only [hb1, hb2, hb3, hb4, if_false, if_true, and_self,
              if_neg (show ¬('.' : Char) = pathDelim by decide),
              if_neg (show ¬nulChar = pathDelim by decide)]
        rw [heq]
        exact ih s len (p1 + 1) p1 hnul hclean
      · have heq : escapeLoop s len p q (n + 1) = escapeLoop s len (p1 + 1) p1 n := by
          rw [escapeLoop, hs]
          simp only [hb1, hb2, if_false,
              if_neg (show ¬('.' : Char) = pathDelim by decide),
              if_neg (show ¬nulChar = pathDelim by decide)]
        rw [heq]
        exact ih s len (p1 + 1) p1 hnul hclean

/-- C6: path sanitization is idempotent.  For any current working
directory (`getcwd` output: an absolute C string) and any path on which
`eina_file_path_sanitize` succeeds, sanitizing the result again returns
it unchanged: the first pass leaves an absolute, NUL-free string
containing no double separator, no interior `/../` and no trailing
`/..`, and on such strings the escape scan only walks the separators
without rewriting anything. -/
theorem sanitize_idempotent (cwd path : List Char)
    (hcwd : cwd.getD 0 nulChar = pathDelim)
    (hnc : nulChar ∉ cwd) (hnp : nulChar ∉ path) :
    eina_file_path_sanitize cwd (eina_file_path_sanitize cwd (some path)) =
      eina_file_path_sanitize cwd (some path) := by
  have hfix : ∀ r : List Char,
      nulChar ∉ r → r.getD 0 nulChar = pathDelim → (∀ i, ¬ escPatAt r i) →
      eina_file_path_sanitize cwd (some r) = some r := by
    intro r h1 h2 h3
    rw [eina_file_path_sanitize]
    rw [if_neg (not_ne_iff.mpr h2)]
    rw [eina_file_escape, escapeLoop_fix (3 * r.length + 1) r r.length 0 0 h1 h3]
  rw [eina_file_path_sanitize]
  by_cases hrel : path.getD 0 nulChar ≠ pathDelim
  · rw [if_pos hrel]
    have hnul : nulChar ∉ cwd ++ pathDelim :: path := by
      intro hm
      rcases List.mem_append.mp hm with hm | hm
      · exact hnc hm
      · rcases List.mem_cons.mp hm with hm | hm
        · exact delim_ne_nul hm.symm
        · exact hnp hm
    have habs : (cwd ++ pathDelim :: path).getD 0 nulChar = pathDelim := by
      cases cwd with
      | nil => simp [List.getD]
      | cons c t =>
        simpa [List.getD_eq_getElem?_getD,
          List.getElem?_append_left (by simp : 0 < (c :: t).length)] using hcwd
    have hlen : path.length + cwd.length + 2 =
        (cwd ++ pathDelim :: path).length + 1 := by
      simp [List.length_append]
      omega
    obtain ⟨o1, o2, o3⟩ := escapeLoop_spec
      (3 * (cwd ++ pathDelim :: path).length + 1)
      (cwd ++ pathDelim :: path) (path.length + cwd.length + 2) 0 0
      (by omega) hnul habs (Or.inr hlen) habs (Nat.le_refl 0)
      (fun j hj => absurd hj (Nat.not_lt_zero j))
    exact hfix _ o1 o2 o3
  · rw [if_neg hrel]
    push_neg at hrel
    obtain ⟨o1, o2, o3⟩ := escapeLoop_spec (3 * path.length + 1) path path.length 0 0
      (by omega) hnp hrel (Or.inl rfl) hrel (Nat.le_refl 0)
      (fun j hj => absurd hj (Nat.not_lt_zero j))
    exact hfix _ o1 o2 o3

/-- Witness for `sanitize_idempotent`: sanitizing `"a/../b//"` under
the working directory `"/home"`. -/
theorem sanitize_idempotent_witness :
    eina_file_path_sanitize "/home".toList
        (eina_file_path_sanitize "/home".toList (some "a/../b//".toList)) =
      eina_file_path_sanitize "/home".toList (some "a/../b//".toList) :=
  sanitize_idempotent "/home".toList "a/../b//".toList (by decide) (by decide)
    (by decide)
end Eina
